import Mathlib

/-!
Verification of the Nepali legal-act parser (`src/scripts/parse_to_json.py`).

This file is a shallow embedding of the parser into Lean 4.  Text is
modelled as `List Char`; Python `re` operations on the handful of concrete
patterns the parser uses are modelled by hand-written deterministic
scanners that implement the leftmost, non-overlapping `re.sub`/`re.match`/
`re.findall` semantics of exactly those patterns.

Modelling conventions, stated once here:

* Python's `\s` (and `str.strip()` / `str.isspace()`) is modelled by
  `pySpace`, covering the ASCII whitespace chars, the C1 controls
  `\x1c`-`\x1f`, `\x85`, NBSP and the Unicode space separators.
* Python's `\d` (any Unicode decimal digit) is modelled by `numCh`,
  covering ASCII `0`-`9` and Devanagari `०`-`९` — the two digit scripts
  the program's own patterns enumerate; other Nd scripts are outside the
  modelled alphabet.
* `hashlib.md5`-derived act identifiers and filename-derived act names are
  environment inputs of `parse_act`; they are abstracted as the parameters
  `act_name`/`act_id` of every parsing function, exactly as every claim
  quantifies "per act".
* Floating-point message formatting inside one `WARNING` validator message
  is not re-rendered: validator issues are modelled as an inductive type
  whose constructors are in bijection with the distinct Python issue
  strings (the ratio guard itself is modelled exactly, as a rational
  comparison).
-/

/-! ## Character classes -/

/-- Python `\s` / `str.isspace()` class, on the modelled alphabet. -/
def pySpace (c : Char) : Bool :=
  c = ' ' ∨ c = '\t' ∨ c = '\n' ∨ c.val = 11 ∨ c.val = 12 ∨ c = '\r' ∨
  (28 ≤ c.val ∧ c.val ≤ 31) ∨ c.val = 0x85 ∨ c.val = 0xA0 ∨ c.val = 0x1680 ∨
  (0x2000 ≤ c.val ∧ c.val ≤ 0x200A) ∨ c.val = 0x2028 ∨ c.val = 0x2029 ∨
  c.val = 0x202F ∨ c.val = 0x205F ∨ c.val = 0x3000

/-- Python `\d` (Unicode decimal digit) on the modelled alphabet: ASCII and
Devanagari digits.  The parser's numeral class `[\d१२३४५६७८९०]` is this
same class, since `\d` already contains the Devanagari digits. -/
def numCh (c : Char) : Bool :=
  ('0' ≤ c ∧ c ≤ '9') ∨ (0x966 ≤ c.val ∧ c.val ≤ 0x96F)

/-- The decorative glyphs removed by `clean_text`'s first substitution,
`[□▪▫●○◆◇■]`. -/
def isBullet (c : Char) : Bool :=
  c = '□' ∨ c = '▪' ∨ c = '▫' ∨ c = '●' ∨ c = '○' ∨ c = '◆' ∨ c = '◇' ∨ c = '■'

/-- The punctuation class `[।,]` of `clean_text`'s spacing substitution. -/
def isPunct (c : Char) : Bool := c = '।' ∨ c = ','

/-- The Devanagari clause-label class of `clause_pattern`:
`[कखगघङचछजझञटठडढणतथदधनपफबभमयरलवशषसह]`. -/
def khandaCh (c : Char) : Bool :=
  c ∈ ['क', 'ख', 'ग', 'घ', 'ङ', 'च', 'छ', 'ज', 'झ', 'ञ', 'ट', 'ठ', 'ड', 'ढ',
       'ण', 'त', 'थ', 'द', 'ध', 'न', 'प', 'फ', 'ब', 'भ', 'म', 'य', 'र', 'ल',
       'व', 'श', 'ष', 'स', 'ह']

/-- The Devanagari block `[ऀ-ॿ]` (U+0900–U+097F) tested by
`validate_parse_quality`. -/
def devanagariCh (c : Char) : Bool := 0x900 ≤ c.val ∧ c.val ≤ 0x97F

/-- ASCII lowercasing, for the one `re.IGNORECASE` literal pattern. -/
def asciiLower (c : Char) : Char :=
  if 'A' ≤ c ∧ c ≤ 'Z' then Char.ofNat (c.toNat + 32) else c

/-! ## Generic list-of-char utilities -/

/-- `pat.isPrefixOf l`, written out so that its equations are convenient. -/
def startsWithL (pat l : List Char) : Bool :=
  List.take pat.length l = pat

/-- Python's `pat in s` substring test. -/
def containsSub (pat : List Char) : List Char → Bool
  | [] => startsWithL pat []
  | c :: rest => startsWithL pat (c :: rest) || containsSub pat rest

/-- `str.split('\n')`. -/
def splitNlGo (cur : List Char) : List Char → List (List Char)
  | [] => [cur.reverse]
  | c :: rest =>
    if c = '\n' then cur.reverse :: splitNlGo [] rest else splitNlGo (c :: cur) rest

/-- `str.split('\n')`. -/
def splitNl (l : List Char) : List (List Char) := splitNlGo [] l

/-- `"_".join parts`. -/
def joinU : List (List Char) → List Char
  | [] => []
  | [p] => p
  | p :: q :: rest => p ++ '_' :: joinU (q :: rest)

/-- `"\n".join parts`. -/
def joinNl : List (List Char) → List Char
  | [] => []
  | [p] => p
  | p :: q :: rest => p ++ '\n' :: joinNl (q :: rest)

/-- First-occurrence deduplication.  Stands in for Python's
`list(set(...))` (whose order is hash-seed dependent — see claim C3) and
for the insertion order of `defaultdict` keys. -/
def dedupF : List (List Char) → List (List Char)
  | [] => []
  | x :: rest => x :: (dedupF rest).filter (fun y => ¬ (y = x))

/-- `str.strip()`. -/
def pyStrip (l : List Char) : List Char :=
  ((l.dropWhile pySpace).reverse.dropWhile pySpace).reverse

/-- Value of a decimal-digit char (ASCII or Devanagari), as accepted by
Python's `int`. -/
def digitVal (c : Char) : Nat :=
  if '0' ≤ c ∧ c ≤ '9' then c.toNat - 48
  else if 0x966 ≤ c.val ∧ c.val ≤ 0x96F then c.toNat - 0x966
  else 0

/-- Python `int` on a string of decimal digits. -/
def natOfDec (l : List Char) : Nat :=
  l.foldl (fun acc c => 10 * acc + digitVal c) 0

/-! ## The `clean_text` pipeline

`clean_text` performs seven passes in order (source lines 43–50):
bullet-glyph removal, case-insensitive watermark removal, removal of
whitespace-digit-only lines (`^\s*\d+\s*$`, MULTILINE), removal of
`नेपाल राजपत्र.*?भाग`, whitespace collapsing, punctuation spacing, and a
final `strip`. -/

/-- Pass 1: `re.sub(r'[□▪▫●○◆◇■]', '', text)`. -/
def dropBullets (l : List Char) : List Char := l.filter (fun c => ¬ isBullet c)

/-- The watermark literal of pass 2. -/
def wmLit : List Char := ("www.lawcommission.gov.np" : String).data

/-- Case-insensitive literal-prefix test (the pattern is ASCII-lowercase). -/
def lowStarts (pat l : List Char) : Bool :=
  (List.take pat.length l).map asciiLower = pat

/-- Leftmost non-overlapping removal of a literal pattern, compared
case-insensitively; models `re.sub(lit, '', s, flags=re.IGNORECASE)` for a
literal `lit`.  Fuel is the input length (each step consumes at least one
char). -/
def removeLitGo (pat : List Char) : Nat → List Char → List Char
  | 0, l => l
  | _ + 1, [] => []
  | fuel + 1, c :: rest =>
    if lowStarts pat (c :: rest) then
      removeLitGo pat fuel (List.drop pat.length (c :: rest))
    else
      c :: removeLitGo pat fuel rest

/-- Pass 2: `re.sub(r'www\.lawcommission\.gov\.np', '', text, flags=re.IGNORECASE)`. -/
def dropWatermark (l : List Char) : List Char := removeLitGo wmLit l.length l

/-- Split a char list at its last `'\n'`: `some (before, '\n' :: after)`. -/
def splitLastNl : List Char → Option (List Char × List Char)
  | [] => none
  | c :: rest =>
    match splitLastNl rest with
    | some (a, b) => some (c :: a, b)
    | none => if c = '\n' then some ([], c :: rest) else none

/-- Attempt to match `\s*\d+\s*$` (MULTILINE `$`) at a line-start position.
Returns `some (endsNl, remaining)` on success, where `remaining` is the
unconsumed suffix and `endsNl` records whether the last consumed char was a
newline (so the scanner knows whether `remaining`'s head sits at a line
start). -/
def tryBareNum (l : List Char) : Option (Bool × List Char) :=
  let r1 := l.dropWhile pySpace
  let d := r1.takeWhile numCh
  if d.isEmpty then none
  else
    let r2 := r1.dropWhile numCh
    let w := r2.takeWhile pySpace
    let r3 := r2.dropWhile pySpace
    if r3.isEmpty then some (false, [])
    else
      match splitLastNl w with
      | some (w1, rest2) =>
        some ((match w1.getLast? with | some c => c = '\n' | none => false),
              rest2 ++ r3)
      | none => none

/-- Scanner of pass 3, `re.sub(r'^\s*\d+\s*$', '', text, flags=re.MULTILINE)`:
at each line-start position try `tryBareNum`; otherwise copy the char.
Fuel is the input length. -/
def bareNumGo : Nat → Bool → List Char → List Char
  | 0, _, l => l
  | _ + 1, _, [] => []
  | fuel + 1, atStart, c :: rest =>
    if atStart then
      match tryBareNum (c :: rest) with
      | some (endsNl, remaining) => bareNumGo fuel endsNl remaining
      | none => c :: bareNumGo fuel (c = '\n') rest
    else
      c :: bareNumGo fuel (c = '\n') rest

/-- Pass 3: removal of whitespace/digit-only lines. -/
def dropBareNumLines (l : List Char) : List Char := bareNumGo l.length true l

/-- The literals of pass 4's pattern `नेपाल राजपत्र.*?भाग`. -/
def gzLit : List Char := ("नेपाल राजपत्र" : String).data

/-- Second literal of pass 4. -/
def bhagLit : List Char := ("भाग" : String).data

/-- Non-greedy search for `भाग` on the same line (`.` does not match
newline): first occurrence before any `'\n'`. -/
def findBhag : List Char → Option (List Char)
  | [] => none
  | c :: rest =>
    if startsWithL bhagLit (c :: rest) then some (List.drop bhagLit.length (c :: rest))
    else if c = '\n' then none
    else findBhag rest

/-- Scanner of pass 4, `re.sub(r'नेपाल राजपत्र.*?भाग', '', text)`. -/
def gazetteGo : Nat → List Char → List Char
  | 0, l => l
  | _ + 1, [] => []
  | fuel + 1, c :: rest =>
    if startsWithL gzLit (c :: rest) then
      match findBhag (List.drop gzLit.length (c :: rest)) with
      | some remaining => gazetteGo fuel remaining
      | none => c :: gazetteGo fuel rest
    else
      c :: gazetteGo fuel rest

/-- Pass 4: removal of gazette headers. -/
def dropGazette (l : List Char) : List Char := gazetteGo l.length l

/-- Pass 5, `re.sub(r'\s+', ' ', text)`: the flag records whether we are
inside a whitespace run (whose first char already emitted the single `' '`). -/
def collapseWs : Bool → List Char → List Char
  | _, [] => []
  | prevWs, c :: rest =>
    if pySpace c then
      if prevWs then collapseWs true rest else ' ' :: collapseWs true rest
    else
      c :: collapseWs false rest

/-- Machine state of pass 6: either scanning normally with a pending run of
not-yet-emitted whitespace, or skipping the whitespace consumed by a match's
trailing `\s*`. -/
inductive P6Mode | norm | skip

/-- Scanner of pass 6, `re.sub(r'\s*([।,])\s*', r'\1 ', text)`.  `pend` is
the pending whitespace run, kept reversed: it is dropped if the run turns
out to lead a match, and emitted verbatim otherwise. -/
def punctMach : P6Mode → List Char → List Char → List Char
  | .norm, pend, [] => pend.reverse
  | .skip, _, [] => []
  | .norm, pend, c :: rest =>
    if isPunct c then c :: ' ' :: punctMach .skip [] rest
    else if pySpace c then punctMach .norm (c :: pend) rest
    else pend.reverse ++ c :: punctMach .norm [] rest
  | .skip, _, c :: rest =>
    if isPunct c then c :: ' ' :: punctMach .skip [] rest
    else if pySpace c then punctMach .skip [] rest
    else c :: punctMach .norm [] rest

/-- Pass 6: punctuation spacing. -/
def punctSpace (l : List Char) : List Char := punctMach .norm [] l

/-- `clean_text` (source lines 39–50).  The guard `if not text: return ""`
is absorbed: every pass maps `[]` to `[]`. -/
def clean_text (l : List Char) : List Char :=
  pyStrip (punctSpace (collapseWs false (dropGazette (dropBareNumLines
    (dropWatermark (dropBullets l))))))

/-! ## Marker patterns (`re.match`, anchored at line start)

Each matcher returns the pattern's capture groups.  Greedy runs of the
numeral / clause-label / whitespace classes need no backtracking because
the classes involved are pairwise disjoint; this is spelled out per
matcher. -/

/-- The literal `भाग`. -/
def partLit : List Char := ("भाग" : String).data

/-- The literal `परिच्छेद`. -/
def chapterLit : List Char := ("परिच्छेद" : String).data

/-- Shared tail of `part_pattern`/`chapter_pattern`:
`\s*[–\-]?\s*([\d१२३४५६७८९०]+)\s*(.*)` after the literal.  A declined
optional dash cannot be rescued by backtracking (the dash is neither
whitespace nor a digit), so the greedy reading is exact. -/
def matchNumTitle (l : List Char) : Option (List Char × List Char) :=
  let r1 := l.dropWhile pySpace
  let r2 :=
    match r1 with
    | c :: rest => if c = '–' ∨ c = '-' then rest.dropWhile pySpace else r1
    | [] => r1
  let num := r2.takeWhile numCh
  if num.isEmpty then none
  else some (num, (r2.dropWhile numCh).dropWhile pySpace)

/-- `part_pattern.match(line)`: `भाग\s*[–\-]?\s*([\d१२३४५६७८९०]+)\s*(.*)`. -/
def matchPart (l : List Char) : Option (List Char × List Char) :=
  if startsWithL partLit l then matchNumTitle (List.drop partLit.length l) else none

/-- `chapter_pattern.match(line)`: `परिच्छेद\s*[–\-]?\s*([\d१२३४५६७८९०]+)\s*(.*)`. -/
def matchChapter (l : List Char) : Option (List Char × List Char) :=
  if startsWithL chapterLit l then matchNumTitle (List.drop chapterLit.length l) else none

/-- `section_pattern.match(line)`: `^([\d१२३४५६७८९०]+)\.\s*(.*)`.  The
digit run is maximal (a shorter run would put a digit where the literal
`.` is required). -/
def matchSection (l : List Char) : Option (List Char × List Char) :=
  if (l.takeWhile numCh).isEmpty then none
  else
    match l.dropWhile numCh with
    | '.' :: rest => some (l.takeWhile numCh, rest.dropWhile pySpace)
    | _ => none

/-- `sub_section_pattern.match(line)`: `^\(([\d१२३४५६७८९०]+)\)\s*(.*)`. -/
def matchSub (l : List Char) : Option (List Char × List Char) :=
  match l with
  | '(' :: rest =>
    if (rest.takeWhile numCh).isEmpty then none
    else
      match rest.dropWhile numCh with
      | ')' :: rest2 => some (rest.takeWhile numCh, rest2.dropWhile pySpace)
      | _ => none
  | _ => none

/-- `clause_pattern.match(line)`:
`^\(([कखगघङचछजझञटठडढणतथदधनपफबभमयरलवशषसह]+)\)\s*(.*)`. -/
def matchClause (l : List Char) : Option (List Char × List Char) :=
  match l with
  | '(' :: rest =>
    if (rest.takeWhile khandaCh).isEmpty then none
    else
      match rest.dropWhile khandaCh with
      | ')' :: rest2 => some (rest.takeWhile khandaCh, rest2.dropWhile pySpace)
      | _ => none
  | _ => none

/-! ## Cross references, definitions -/

/-- One `re.findall` pass for `lit\s*([\d१२३४५६७८९०]+)` (used for
`दफा`/`परिच्छेद`): at each position where `lit` is a prefix, whitespace is
skipped and a nonempty numeral run is captured; otherwise scanning moves
one char right.  After a capture, scanning resumes past the match. -/
def findNumRefs (lit : List Char) : Nat → List Char → List (List Char)
  | 0, _ => []
  | _ + 1, [] => []
  | fuel + 1, c :: rest =>
    if startsWithL lit (c :: rest) then
      let r := (List.drop lit.length (c :: rest)).dropWhile pySpace
      let d := r.takeWhile numCh
      if d.isEmpty then findNumRefs lit fuel rest
      else d :: findNumRefs lit fuel (r.dropWhile numCh)
    else findNumRefs lit fuel rest

/-- One `re.findall` pass for `उपदफा\s*\(([\d१२३४५६७८९०]+)\)`. -/
def findParenRefs (lit : List Char) : Nat → List Char → List (List Char)
  | 0, _ => []
  | _ + 1, [] => []
  | fuel + 1, c :: rest =>
    (if startsWithL lit (c :: rest) then
      match (List.drop lit.length (c :: rest)).dropWhile pySpace with
      | '(' :: r =>
        let d := r.takeWhile numCh
        if d.isEmpty then findParenRefs lit fuel rest
        else
          match r.dropWhile numCh with
          | ')' :: r2 => d :: findParenRefs lit fuel r2
          | _ => findParenRefs lit fuel rest
      | _ => findParenRefs lit fuel rest
    else findParenRefs lit fuel rest)

/-- The literal `दफा`. -/
def daphaLit : List Char := ("दफा" : String).data

/-- The literal `उपदफा`. -/
def updaphaLit : List Char := ("उपदफा" : String).data

/-- `extract_cross_references` (source lines 92–97): the three `findall`
passes concatenated, then `list(set(...))`.  The Python set order is
hash-seed dependent; it is modelled here as first-occurrence order (one
admissible order) — claim C3 is about exactly this defect. -/
def extract_cross_references (l : List Char) : List (List Char) :=
  dedupF (findNumRefs daphaLit l.length l ++ findParenRefs updaphaLit l.length l ++
          findNumRefs chapterLit l.length l)

/-- The literal `परिभाषा`. -/
def paribhashaLit : List Char := ("परिभाषा" : String).data

/-- The literal `परिभाषाहरू`. -/
def paribhashaharuLit : List Char := ("परिभाषाहरू" : String).data

/-- The literal `शब्दार्थ`. -/
def shabdarthaLit : List Char := ("शब्दार्थ" : String).data

/-- `is_definition_section` (source lines 99–100). -/
def is_definition_section (l : List Char) : Bool :=
  containsSub paribhashaLit l || containsSub paribhashaharuLit l ||
  containsSub shabdarthaLit l

/-! ## Chunks -/

/-- The `metadata["type"]` values. -/
inductive ChunkType
  | sec | subsec | clause | comprehensive
  deriving DecidableEq, Repr, Inhabited

/-- `isAtomicType` is true for the three types produced by the line
scanner and false for `section_comprehensive`. -/
def isAtomicType : ChunkType → Bool
  | .comprehensive => false
  | _ => true

/-- `LegalChunk` with its `metadata` dict flattened into fields.  `Option`
fields model dict keys that are absent for some chunk types (`none` =
absent, except `sub_section_no` on a clause chunk, where the key is
present and may hold Python `None`, also `none` here). -/
structure Chunk where
  content : List Char
  content_with_context : List Char
  chunk_id : List Char
  act_name : List Char
  act_identifier : List Char
  part : List Char
  chapter : List Char
  dapha_no : List Char
  sub_section_no : Option (List Char)
  khanda_label : Option (List Char)
  citation : List Char
  page_no : Nat
  type : ChunkType
  is_definition : Option Bool
  parent_section_title : Option (List Char)
  cross_references : List (List Char)
  hierarchy_level : Nat
  sub_chunk_count : Option Nat
  deriving DecidableEq, Repr, Inhabited

/-- `generate_chunk_id` (source lines 83–90): underscore-join of act id,
section number, and the optional subsection/clause components, where a
`None` or empty component is skipped (`if sub:` is Python truthiness). -/
def generate_chunk_id (act_id dapha : List Char) (sub khanda : Option (List Char)) :
    List Char :=
  joinU ([act_id, dapha] ++
    (match sub with | some s => if s.isEmpty then [] else [s] | none => []) ++
    (match khanda with | some k => if k.isEmpty then [] else [k] | none => []))

/-- Python truthiness of an optional string. -/
def truthy : Option (List Char) → Bool
  | none => false
  | some s => ¬ s.isEmpty

/-- `create_contextual_content` (source lines 105–124), including the
Python-truthiness dispatch on the optional subsection/clause texts. -/
def create_contextual_content (secTitle secNo : List Char)
    (subText subNo clText clLab : Option (List Char)) : List Char × List Char :=
  let minimal :=
    if truthy clText then '(' :: clLab.getD [] ++ ')' :: ' ' :: clText.getD []
    else if truthy subText then '(' :: subNo.getD [] ++ ')' :: ' ' :: subText.getD []
    else secNo ++ '.' :: ' ' :: secTitle
  let contextual :=
    (("दफा " : String).data ++ secNo ++ (": " : String).data ++ secTitle ++ ['\n']) ++
    (if truthy subText then '(' :: subNo.getD [] ++ ')' :: ' ' :: subText.getD [] ++ ['\n']
     else []) ++
    (if truthy clText then '(' :: clLab.getD [] ++ ')' :: ' ' :: clText.getD [] else [])
  (pyStrip minimal, pyStrip contextual)

/-! ## The line-by-line state machine -/

/-- The mutable locals of `parse_act`'s loop (source lines 141–159), minus
the chunk-independent raw text. -/
structure PState where
  part : List Char
  chapter : List Char
  secNo : Option (List Char)
  secTitle : Option (List Char)
  secFull : List (List Char)
  subNo : Option (List Char)
  subText : Option (List Char)
  anchorFound : Bool
  chunks : List Chunk
  nSections : Nat
  nSubsections : Nat
  nClauses : Nat
  definitions : List (List Char)
  crossRefMap : List (List Char × List (List Char))
  deriving DecidableEq, Repr

/-- Initial state (source lines 141–159). -/
def initState : PState :=
  { part := ("Main" : String).data
    chapter := ("General" : String).data
    secNo := none, secTitle := none, secFull := []
    subNo := none, subText := none
    anchorFound := false, chunks := []
    nSections := 0, nSubsections := 0, nClauses := 0
    definitions := [], crossRefMap := [] }

/-- The literal `प्रस्तावना`. -/
def prastavanaLit : List Char := ("प्रस्तावना" : String).data

/-- The anchor test of source lines 176–179. -/
def anchorTrigger (line : List Char) : Bool :=
  containsSub prastavanaLit line || containsSub paribhashaLit line ||
  startsWithL ("१." : String).data line || (matchSection line).isSome

/-- Modify the last element of a list (`chunks[-1]`). -/
def modifyLast (f : Chunk → Chunk) : List Chunk → List Chunk
  | [] => []
  | [c] => [f c]
  | c :: d :: rest => c :: modifyLast f (d :: rest)

/-- Section-marker branch (source lines 194–238). -/
def emitSection (an ai : List Char) (pg : Nat) (st : PState) (n rawTitle : List Char) :
    PState :=
  let t := clean_text rawTitle
  let mc := create_contextual_content t n none none none none
  let cid := generate_chunk_id ai n none none
  let refs := extract_cross_references t
  let isdef := is_definition_section t
  let c : Chunk :=
    { content := mc.1, content_with_context := mc.2, chunk_id := cid
      act_name := an, act_identifier := ai, part := st.part, chapter := st.chapter
      dapha_no := n, sub_section_no := none, khanda_label := none
      citation := an ++ (", दफा " : String).data ++ n
      page_no := pg, type := .sec, is_definition := some isdef
      parent_section_title := none, cross_references := refs
      hierarchy_level := 1, sub_chunk_count := none }
  { st with secNo := some n, secTitle := some t, secFull := [t]
            subNo := none, subText := none
            chunks := st.chunks ++ [c]
            nSections := st.nSections + 1
            definitions := if isdef then st.definitions ++ [cid] else st.definitions
            crossRefMap := if refs.isEmpty then st.crossRefMap
                           else st.crossRefMap ++ [(cid, refs)] }

/-- Subsection-marker branch (source lines 240–281); only reached with an
open section `d`. -/
def emitSub (an ai : List Char) (pg : Nat) (st : PState) (d n rawText : List Char) :
    PState :=
  let t := clean_text rawText
  let mc := create_contextual_content (st.secTitle.getD []) d (some t) (some n) none none
  let cid := generate_chunk_id ai d (some n) none
  let refs := extract_cross_references t
  let c : Chunk :=
    { content := mc.1, content_with_context := mc.2, chunk_id := cid
      act_name := an, act_identifier := ai, part := st.part, chapter := st.chapter
      dapha_no := d, sub_section_no := some n, khanda_label := none
      citation := an ++ (", दफा " : String).data ++ d ++ '(' :: n ++ [')']
      page_no := pg, type := .subsec, is_definition := none
      parent_section_title := st.secTitle, cross_references := refs
      hierarchy_level := 2, sub_chunk_count := none }
  { st with subNo := some n, subText := some t
            secFull := st.secFull ++ ['(' :: n ++ ')' :: ' ' :: t]
            chunks := st.chunks ++ [c]
            nSubsections := st.nSubsections + 1
            crossRefMap := if refs.isEmpty then st.crossRefMap
                           else st.crossRefMap ++ [(cid, refs)] }

/-- Clause-marker branch (source lines 283–331); only reached with an open
section `d`. -/
def emitClause (an ai : List Char) (pg : Nat) (st : PState) (d lab rawText : List Char) :
    PState :=
  let t := clean_text rawText
  let mc := create_contextual_content (st.secTitle.getD []) d st.subText st.subNo
              (some t) (some lab)
  let cid := generate_chunk_id ai d st.subNo (some lab)
  let refs := extract_cross_references t
  let cit := an ++ (", दफा " : String).data ++ d ++
    (match st.subNo with
     | some u => '(' :: u ++ [')']
     | none => []) ++ '(' :: lab ++ [')']
  let c : Chunk :=
    { content := mc.1, content_with_context := mc.2, chunk_id := cid
      act_name := an, act_identifier := ai, part := st.part, chapter := st.chapter
      dapha_no := d, sub_section_no := st.subNo, khanda_label := some lab
      citation := cit
      page_no := pg, type := .clause, is_definition := none
      parent_section_title := st.secTitle, cross_references := refs
      hierarchy_level := 3, sub_chunk_count := none }
  { st with secFull := st.secFull ++ ['(' :: lab ++ ')' :: ' ' :: t]
            chunks := st.chunks ++ [c]
            nClauses := st.nClauses + 1
            crossRefMap := if refs.isEmpty then st.crossRefMap
                           else st.crossRefMap ++ [(cid, refs)] }

/-- The continuation update of source lines 335–336: append the cleaned
line (space-joined) to the current chunk's two content fields. -/
def contAppend (line : List Char) (c : Chunk) : Chunk :=
  { c with content := c.content ++ ' ' :: clean_text line
           content_with_context := c.content_with_context ++ ' ' :: clean_text line }

/-- Dispatch on an anchored, stripped, nonempty line (source lines 184–337). -/
def processMarked (an ai : List Char) (pg : Nat) (st : PState) (line : List Char) :
    PState :=
  match matchPart line with
  | some (n, t) =>
    { st with part := partLit ++ ' ' :: n ++ ':' :: ' ' :: clean_text t }
  | none =>
  match matchChapter line with
  | some (n, t) =>
    { st with chapter := chapterLit ++ ' ' :: n ++ ':' :: ' ' :: clean_text t }
  | none =>
  match matchSection line with
  | some (n, t) => emitSection an ai pg st n t
  | none =>
  match matchSub line, st.secNo with
  | some (n, t), some d => emitSub an ai pg st d n t
  | _, _ =>
  match matchClause line, st.secNo with
  | some (lab, t), some d => emitClause an ai pg st d lab t
  | _, _ =>
  if st.chunks.isEmpty then st
  else
    { st with
        chunks := modifyLast (contAppend line) st.chunks
        secFull := st.secFull ++ [clean_text line] }

/-- The blank-line skip and anchor search (source lines 171–182) applied to
an already-stripped line, dispatching to `processMarked`. -/
def processStripped (an ai : List Char) (pg : Nat) (st : PState) (line : List Char) :
    PState :=
  if line.isEmpty then st
  else if st.anchorFound || anchorTrigger line then
    processMarked an ai pg { st with anchorFound := true } line
  else st

/-- One iteration of the inner line loop (source lines 170–337): strip,
skip blank lines, seek the anchor, then dispatch. -/
def processLine (an ai : List Char) (pg : Nat) (st : PState) (rawLine : List Char) :
    PState :=
  processStripped an ai pg st (pyStrip rawLine)

/-! ## Page segmentation -/

/-- The guard literal `--- PAGE` of source line 161. -/
def pageGuardLit : List Char := ("--- PAGE" : String).data

/-- The pattern head `--- PAGE ` of `re.split(r"--- PAGE (\d+) ---", ...)`. -/
def pageHeadLit : List Char := ("--- PAGE " : String).data

/-- The pattern tail ` ---`. -/
def pageTailLit : List Char := (" ---" : String).data

/-- Leftmost match of `--- PAGE (\d+) ---` in the input, returning the text
before the match, the captured digits, and the text after the match. -/
def findPageMarker : Nat → List Char → Option (List Char × List Char × List Char)
  | 0, _ => none
  | _ + 1, [] => none
  | fuel + 1, c :: rest =>
    (if startsWithL pageHeadLit (c :: rest) then
      let r := List.drop pageHeadLit.length (c :: rest)
      let d := r.takeWhile numCh
      if d.isEmpty then
        match findPageMarker fuel rest with
        | some (pre, n, post) => some (c :: pre, n, post)
        | none => none
      else
        match r.dropWhile numCh with
        | t =>
          if startsWithL pageTailLit t then
            some ([], d, List.drop pageTailLit.length t)
          else
            match findPageMarker fuel rest with
            | some (pre, n, post) => some (c :: pre, n, post)
            | none => none
    else
      match findPageMarker fuel rest with
      | some (pre, n, post) => some (c :: pre, n, post)
      | none => none)

/-- After the first marker: pair each page number with the text up to the
next marker (`re.split` alternation consumed pairwise by the loop of
source lines 166–167). -/
def pagesFrom : Nat → Nat → List Char → List (Nat × List Char)
  | 0, n, l => [(n, l)]
  | fuel + 1, n, l =>
    match findPageMarker l.length l with
    | none => [(n, l)]
    | some (body, d, post) => (n, body) :: pagesFrom fuel (natOfDec d) post

/-- Page segmentation (source lines 161–164): if the guard substring
`--- PAGE` occurs, `re.split` on the full marker pattern (discarding the
text before the first marker, and discarding everything when the full
pattern never matches, since the loop starts at index 1); otherwise the
whole text is page `1`. -/
def pagesOf (raw : List Char) : List (Nat × List Char) :=
  if containsSub pageGuardLit raw then
    match findPageMarker raw.length raw with
    | none => []
    | some (_, d, post) => pagesFrom post.length (natOfDec d) post
  else [(1, raw)]

/-! ## Comprehensive chunks, validation, and `parse_act` -/

/-- `create_comprehensive_chunks` (source lines 358–391): group the atomic
chunks by section number (`defaultdict` keeps first-appearance key order
and per-key original order); each group of size `> 1` yields one
`section_comprehensive` chunk. -/
def create_comprehensive_chunks (an ai : List Char) (chunks : List Chunk) :
    List Chunk :=
  let atomic := chunks.filter (fun c => isAtomicType c.type)
  (dedupF (atomic.map (fun c => c.dapha_no))).filterMap (fun d =>
    let g := atomic.filter (fun c => c.dapha_no = d)
    if 1 < g.length then
      some
        { content := joinNl (g.map (fun c => c.content))
          content_with_context := joinNl (g.map (fun c => c.content))
          chunk_id := joinU [ai, d, ("full" : String).data]
          act_name := an, act_identifier := ai
          part := (g.headI).part, chapter := (g.headI).chapter
          dapha_no := d, sub_section_no := none, khanda_label := none
          citation := an ++ (", दफा " : String).data ++ d ++ (" (पूर्ण)" : String).data
          page_no := (g.headI).page_no, type := .comprehensive
          is_definition := none, parent_section_title := none
          cross_references := [], hierarchy_level := 0
          sub_chunk_count := some g.length }
    else none)

/-- The validator's issue strings (source lines 393–419), one constructor
per distinct Python message.  `warnFewChunks n` renders `n` into its
message; `warnLowRatio` embeds a float formatted with `:.2f`, whose
decimal rendering is not re-modelled (no claim observes it). -/
inductive Issue
  | criticalNoChunks
  | warnFewChunks (n : Nat)
  | criticalNoSections
  | infoNoSubstructure
  | warnLowRatio
  | criticalNoDevanagari
  deriving DecidableEq, Repr

/-- `validate_parse_quality` (source lines 393–419).  The float guard
`(subs+clauses)/sections < 0.3` is modelled as the exact rational
comparison `10*(subs+clauses) < 3*sections` (both sides are small
integers, where the double-rounding of the quotient cannot cross the
threshold). -/
def validate_parse_quality (chunks : List Chunk)
    (nSections nSubsections nClauses : Nat) (rawText : List Char) : List Issue :=
  if chunks.length = 0 then [.criticalNoChunks]
  else
    ((if chunks.length < 5 then [Issue.warnFewChunks chunks.length] else []) ++
     (if nSections = 0 then [Issue.criticalNoSections] else []) ++
     (if 0 < nSections ∧ nSubsections = 0 ∧ nClauses = 0
      then [Issue.infoNoSubstructure] else []) ++
     (if 0 < nSections ∧ 10 * (nSubsections + nClauses) < 3 * nSections
      then [Issue.warnLowRatio] else []) ++
     (if rawText.any devanagariCh then [] else [Issue.criticalNoDevanagari]))

/-- The final state of `parse_act`'s line loop over all pages. -/
def parseState (an ai : List Char) (raw : List Char) : PState :=
  (pagesOf raw).foldl
    (fun st pg => (splitNl pg.2).foldl (fun st line => processLine an ai pg.1 st line) st)
    initState

/-- The chunk list returned by `parse_act` (source lines 339–341): the
atomic chunks, extended with the comprehensive chunks when nonempty. -/
def parse_act_chunks (an ai : List Char) (raw : List Char) : List Chunk :=
  let st := parseState an ai raw
  if st.chunks.isEmpty then st.chunks
  else st.chunks ++ create_comprehensive_chunks an ai st.chunks

/-- The `validation_issues` entry of `parse_act`'s metadata (source
lines 343–356). -/
def parse_act_issues (an ai : List Char) (raw : List Char) : List Issue :=
  let st := parseState an ai raw
  validate_parse_quality (parse_act_chunks an ai raw)
    st.nSections st.nSubsections st.nClauses raw

/-! ## Concrete example inputs used by claim theorems -/

/-- The three input lines of spec Example 1 / claim C7. -/
def exC7 : List Char :=
  ("१. परिभाषा\n(१) यस ऐनमा अन्यथा उल्लेख भएकोमा बाहेक...\n(क) \"अधिकारी\" भन्नाले तोकिएको अधिकारी सम्झनु पर्छ।" : String).data

/-! ## Wellformedness and hierarchy predicates (used by the invariant claims) -/

/-- A nonempty run of numeral-class chars (the shape of every captured
section/subsection number). -/
def isNumStr (l : List Char) : Bool := ¬ l.isEmpty && l.all numCh

/-- A nonempty run of clause-label chars. -/
def isKhandaStr (l : List Char) : Bool := ¬ l.isEmpty && l.all khandaCh

/-- The marker-path key of an atomic chunk: its section number and optional
subsection number / clause label. -/
def chunkKey (c : Chunk) : List Char × Option (List Char) × Option (List Char) :=
  (c.dapha_no, c.sub_section_no, c.khanda_label)

/-- Shape invariant tying a chunk's `chunk_id` to its marker-path key, per
chunk type, with the character classes of the captured components. -/
def chunkWF (ai : List Char) (c : Chunk) : Bool :=
  match c.type with
  | .sec =>
    isNumStr c.dapha_no && c.sub_section_no = none && c.khanda_label = none &&
      c.chunk_id = joinU [ai, c.dapha_no]
  | .subsec =>
    match c.sub_section_no with
    | some u =>
      isNumStr c.dapha_no && isNumStr u && c.khanda_label = none &&
        c.chunk_id = joinU [ai, c.dapha_no, u]
    | none => false
  | .clause =>
    match c.khanda_label, c.sub_section_no with
    | some k, some u =>
      isNumStr c.dapha_no && isNumStr u && isKhandaStr k &&
        c.chunk_id = joinU [ai, c.dapha_no, u, k]
    | some k, none =>
      isNumStr c.dapha_no && isKhandaStr k && c.chunk_id = joinU [ai, c.dapha_no, k]
    | none, _ => false
  | .comprehensive =>
    isNumStr c.dapha_no && c.chunk_id = joinU [ai, c.dapha_no, ("full" : String).data]

/-- Section numbers of the section chunks of a list, in order. -/
def secDaphas : List Chunk → List (List Char)
  | [] => []
  | c :: rest =>
    if c.type = ChunkType.sec then c.dapha_no :: secDaphas rest else secDaphas rest

/-- One chunk's hierarchy-order check against the section numbers seen so
far: a `sub_section`/`clause` chunk must name an already-seen section. -/
def hierChunkOK (secs : List (List Char)) (c : Chunk) : Bool :=
  match c.type with
  | .subsec => decide (c.dapha_no ∈ secs)
  | .clause => decide (c.dapha_no ∈ secs)
  | _ => true

/-- Left-to-right hierarchy-order check of a chunk list. -/
def hierOKgo (secs : List (List Char)) : List Chunk → Bool
  | [] => true
  | c :: rest =>
    hierChunkOK secs c &&
      hierOKgo (if c.type = ChunkType.sec then c.dapha_no :: secs else secs) rest

/-- Section numbers accumulated by `hierOKgo` after scanning a list. -/
def secsAcc (secs : List (List Char)) : List Chunk → List (List Char)
  | [] => secs
  | c :: rest =>
    secsAcc (if c.type = ChunkType.sec then c.dapha_no :: secs else secs) rest

/-- The parse-loop state invariant backing claims C1, C2 and C4: all
accumulated chunks are shape-wellformed atomic chunks in hierarchy order,
the open section/subsection numbers are numeral runs, the open section
number names an already-emitted section chunk, and before the first
section no chunk exists. -/
structure SInv (ai : List Char) (st : PState) : Prop where
  wf : ∀ c ∈ st.chunks, chunkWF ai c = true
  atomic : ∀ c ∈ st.chunks, isAtomicType c.type = true
  hier : hierOKgo [] st.chunks = true
  secNum : ∀ d, st.secNo = some d → isNumStr d = true
  secMem : ∀ d, st.secNo = some d → d ∈ secDaphas st.chunks
  subNum : ∀ u, st.subNo = some u → isNumStr u = true
  chunksNil : st.secNo = none → st.chunks = []

/-- Modelled from the spec: spec §4.6 demands that cross-reference output
"MUST be made deterministic in the chosen implementation (sorted output)".
Code-point-lexicographic comparison of numeral strings. -/
def lexLe : List Char → List Char → Bool
  | [], _ => true
  | _ :: _, [] => false
  | c :: x, d :: y => if c = d then lexLe x y else decide (c.val < d.val)

/-- Modelled from the spec: insertion into a `lexLe`-sorted list. -/
def insertLex (x : List Char) : List (List Char) → List (List Char)
  | [] => [x]
  | y :: rest => if lexLe x y then x :: y :: rest else y :: insertLex x rest

/-- Modelled from the spec: the sorted cross-reference list that §4.6
requires `extract_cross_references` to return. -/
def sortRefs (l : List (List Char)) : List (List Char) :=
  l.foldr insertLex []

/-! ## Whitespace-shape predicates (used by the idempotence claim)

These predicates describe the shape of `clean_text` output around the
whitespace-collapsing and punctuation-spacing passes. -/

/-- Every whitespace char is a plain `' '`. -/
def wsSp (l : List Char) : Bool := l.all (fun c => !(pySpace c) || c = ' ')

/-- No two adjacent whitespace chars. -/
def noDbl : List Char → Bool
  | [] => true
  | [_] => true
  | c :: d :: rest => !(pySpace c && pySpace d) && noDbl (d :: rest)

/-- The one-char left context carried by `sOK` is not a punctuation
char (it is absent, or a char other than `।`/`,`). -/
def okPrev : Option Char → Bool
  | none => true
  | some c => !(isPunct c)

/-- Whether the one-char left context is a punctuation char. -/
def prevPunct : Option Char → Bool
  | none => false
  | some p => isPunct p

/-- Shape invariant of punctuation-spaced, whitespace-collapsed text,
scanned left to right with the previous char as context: every whitespace
char is `' '` and is followed by a non-whitespace char (if any), which may
be a punctuation char only when the char before the space was punctuation;
every punctuation char is followed by `' '` or ends the string. -/
def sOK : Option Char → List Char → Bool
  | _, [] => true
  | prev, c :: rest =>
    (!(pySpace c) || c = ' ') &&
    (if pySpace c then
       (match rest with
        | d :: _ => !(pySpace d) && (!(isPunct d) || prevPunct prev)
        | [] => true)
     else if isPunct c then
       (match rest with | d :: _ => d = ' ' | [] => true)
     else true) &&
    sOK (some c) rest

/-- The head (if any) is not whitespace. -/
def headNW : List Char → Bool
  | [] => true
  | c :: _ => !(pySpace c)

/-- The last char (if any) is not whitespace. -/
def lastNW (l : List Char) : Bool := headNW l.reverse

/-- Removal of trailing whitespace (the right half of `str.strip()`). -/
def dropT (l : List Char) : List Char := (l.reverse.dropWhile pySpace).reverse

/-! ## Theorems -/

/-! ### Generic helper lemmas -/

theorem foldl_inv {α σ : Type} (Inv : σ → Prop) (P : α → Prop) (f : σ → α → σ)
    (hstep : ∀ s a, Inv s → P a → Inv (f s a)) :
    ∀ (l : List α) (s : σ), Inv s → (∀ a ∈ l, P a) → Inv (List.foldl f s l) := by
  intro l
  induction l with
  | nil => intro s hs _; exact hs
  | cons a t ih =>
    intro s hs hp
    exact ih (f s a) (hstep s a hs (hp a (List.mem_cons_self a t)))
      (fun b hb => hp b (List.mem_cons_of_mem a hb))

theorem mem_modifyLast (P : Chunk → Prop) (f : Chunk → Chunk)
    (hf : ∀ c, P c → P (f c)) :
    ∀ l : List Chunk, (∀ c ∈ l, P c) → ∀ c ∈ modifyLast f l, P c := by
  intro l
  induction l with
  | nil => intro _ c hc; simp [modifyLast] at hc
  | cons a t ih =>
    intro hl c hc
    cases t with
    | nil =>
      simp [modifyLast] at hc
      subst hc
      exact hf a (hl a (by simp))
    | cons b t2 =>
      rw [modifyLast] at hc
      rcases List.mem_cons.mp hc with h | h
      · subst h; exact hl c (by simp)
      · exact ih (fun x hx => hl x (List.mem_cons_of_mem a hx)) c h

theorem modifyLast_append_singleton (f : Chunk → Chunk) :
    ∀ (rest : List Chunk) (c : Chunk), modifyLast f (rest ++ [c]) = rest ++ [f c] := by
  intro rest
  induction rest with
  | nil => intro c; rfl
  | cons a t ih =>
    intro c
    cases t with
    | nil => rfl
    | cons b t2 =>
      show a :: modifyLast f (b :: t2 ++ [c]) = (a :: b :: t2) ++ [f c]
      rw [ih c]
      rfl

theorem headI_mem_of_ne {l : List Chunk} (h : l ≠ []) : l.headI ∈ l := by
  cases l with
  | nil => exact absurd rfl h
  | cons a t => simp [List.headI]

theorem startsWithL_headI {pat a : Char} {l t : List Char}
    (h : startsWithL (pat :: l) (a :: t) = true) : a = pat := by
  unfold startsWithL at h
  have h2 := of_decide_eq_true h
  exact congrArg List.headI h2

/-! ### Pattern disjointness -/

theorem matchPart_nonempty {l : List Char} {r : List Char × List Char}
    (h : matchPart l = some r) : l.isEmpty = false := by
  cases l with
  | nil => exact absurd h (by simp [matchPart, startsWithL, partLit])
  | cons a t => rfl

theorem matchChapter_nonempty {l : List Char} {r : List Char × List Char}
    (h : matchChapter l = some r) : l.isEmpty = false := by
  cases l with
  | nil => exact absurd h (by simp [matchChapter, startsWithL, chapterLit])
  | cons a t => rfl

theorem matchPart_none_of_head {a : Char} {t : List Char} (h : ¬ a = 'भ') :
    matchPart (a :: t) = none := by
  unfold matchPart
  rw [if_neg]
  intro hs
  exact h (@startsWithL_headI 'भ' _ _ _ hs)

theorem matchChapter_none_of_head {a : Char} {t : List Char} (h : ¬ a = 'प') :
    matchChapter (a :: t) = none := by
  unfold matchChapter
  rw [if_neg]
  intro hs
  exact h (@startsWithL_headI 'प' _ _ _ hs)

theorem matchSection_none_of_head {a : Char} {t : List Char} (h : numCh a = false) :
    matchSection (a :: t) = none := by
  unfold matchSection
  rw [List.takeWhile_cons, h]
  rfl

/-! ### Claim C5: a file with no section-marker lines -/

theorem processMarked_nosec (an ai : List Char) (pg : Nat) (st : PState) (line : List Char)
    (h1 : st.secNo = none) (h2 : st.chunks = [])
    (hm : matchSection line = none) :
    (processMarked an ai pg st line).secNo = none ∧
      (processMarked an ai pg st line).chunks = [] := by
  unfold processMarked
  split
  · exact ⟨h1, h2⟩
  · split
    · exact ⟨h1, h2⟩
    · split
      · rename_i heq; rw [hm] at heq; exact Option.noConfusion heq
      · split
        · rename_i heq; rw [h1] at heq; exact Option.noConfusion heq
        · split
          · rename_i heq; rw [h1] at heq; exact Option.noConfusion heq
          · split
            · exact ⟨h1, h2⟩
            · rename_i hne; rw [h2] at hne; simp at hne

theorem processLine_nosec (an ai : List Char) (pg : Nat) (st : PState) (line : List Char)
    (h1 : st.secNo = none) (h2 : st.chunks = [])
    (hm : matchSection (pyStrip line) = none) :
    (processLine an ai pg st line).secNo = none ∧
      (processLine an ai pg st line).chunks = [] := by
  unfold processLine processStripped
  split
  · exact ⟨h1, h2⟩
  · split
    · exact processMarked_nosec an ai pg _ _ h1 h2 hm
    · exact ⟨h1, h2⟩

/-- C5 (counterexample).  The input `नमस्ते` has no line matching the
Section pattern; `parse_act` yields zero chunks, but its validation list is
exactly the CRITICAL no-chunks entry and does NOT contain the CRITICAL
"no sections" entry, contrary to the claim: the zero-chunk rule
short-circuits the validator before the no-sections rule can fire. -/
theorem c5_counterexample :
    (∀ pg ∈ pagesOf ("नमस्ते" : String).data,
       ∀ line ∈ splitNl pg.2, matchSection (pyStrip line) = none) ∧
    parse_act_chunks ("ऐन" : String).data ("a1b2c3d4" : String).data ("नमस्ते" : String).data = [] ∧
    Issue.criticalNoSections ∉
      parse_act_issues ("ऐन" : String).data ("a1b2c3d4" : String).data ("नमस्ते" : String).data := by
  decide

/-- C5 (amended).  For every input whose lines (per page, after stripping)
never match the Section pattern, `parse_act` yields zero chunks and the
validation-issue list is exactly the CRITICAL no-chunks entry — the
CRITICAL "no sections" entry is preempted by the zero-chunk
short-circuit. -/
theorem c5_zero_sections (an ai raw : List Char)
    (hns : ∀ pg ∈ pagesOf raw, ∀ line ∈ splitNl pg.2, matchSection (pyStrip line) = none) :
    parse_act_chunks an ai raw = [] ∧ parse_act_issues an ai raw = [.criticalNoChunks] := by
  have hst : (parseState an ai raw).secNo = none ∧ (parseState an ai raw).chunks = [] := by
    unfold parseState
    refine foldl_inv (fun st => st.secNo = none ∧ st.chunks = [])
      (fun pg => ∀ line ∈ splitNl pg.2, matchSection (pyStrip line) = none) _
      ?_ (pagesOf raw) initState ⟨rfl, rfl⟩ hns
    intro s pg hs hp
    exact foldl_inv (fun st => st.secNo = none ∧ st.chunks = [])
      (fun line => matchSection (pyStrip line) = none) _
      (fun s2 line hs2 hl => processLine_nosec an ai pg.1 s2 line hs2.1 hs2.2 hl)
      (splitNl pg.2) s hs hp
  have hchunks : parse_act_chunks an ai raw = [] := by
    simp only [parse_act_chunks]
    rw [hst.2]
    simp
  refine ⟨hchunks, ?_⟩
  simp only [parse_act_issues]
  rw [hchunks]
  rfl

/-- C5 (witness).  The amended theorem applied to the concrete section-less
input `कखग`. -/
theorem c5_zero_sections_witness :
    parse_act_chunks ("ऐन" : String).data ("e5f6a7b8" : String).data ("कखग" : String).data = [] ∧
    parse_act_issues ("ऐन" : String).data ("e5f6a7b8" : String).data ("कखग" : String).data =
      [.criticalNoChunks] :=
  c5_zero_sections ("ऐन" : String).data ("e5f6a7b8" : String).data ("कखग" : String).data
    (by decide)

/-! ### Claim C7: the worked example -/

/-- C7 (counterexample).  Parsing the three example lines under act
identifier `ab12cd34` does not produce three chunks: a fourth,
`section_comprehensive`, chunk `ab12cd34_१_full` is also produced (section
१ has three atomic chunks, so the aggregation pass adds one more). -/
theorem c7_counterexample :
    ¬ ((parse_act_chunks ("ऐन" : String).data ("ab12cd34" : String).data exC7).map
        (fun c => c.chunk_id) =
      [("ab12cd34_१" : String).data, ("ab12cd34_१_१" : String).data,
       ("ab12cd34_१_१_क" : String).data]) := by
  decide

/-- C7 (amended).  Parsing the three example lines under act identifier
`ab12cd34` produces four chunks: the three atomic chunks with ids
`ab12cd34_१`, `ab12cd34_१_१`, `ab12cd34_१_१_क` — the first with
`is_definition = true` and type section, the third with type clause,
hierarchy level 3 and citation `<act>, दफा १(१)(क)` — plus one
`section_comprehensive` chunk `ab12cd34_१_full` (hierarchy level 0). -/
theorem c7_example_parse (an : List Char) :
    (parse_act_chunks an ("ab12cd34" : String).data exC7).map (fun c => c.chunk_id) =
      [("ab12cd34_१" : String).data, ("ab12cd34_१_१" : String).data,
       ("ab12cd34_१_१_क" : String).data, ("ab12cd34_१_full" : String).data] ∧
    (parse_act_chunks an ("ab12cd34" : String).data exC7).map (fun c => c.type) =
      [.sec, .subsec, .clause, .comprehensive] ∧
    (parse_act_chunks an ("ab12cd34" : String).data exC7).map (fun c => c.hierarchy_level) =
      [1, 2, 3, 0] ∧
    (parse_act_chunks an ("ab12cd34" : String).data exC7).map (fun c => c.is_definition) =
      [some true, none, none, none] ∧
    (parse_act_chunks an ("ab12cd34" : String).data exC7).map (fun c => c.citation) =
      [an ++ (", दफा १" : String).data, an ++ (", दफा १(१)" : String).data,
       an ++ (", दफा १(१)(क)" : String).data, an ++ (", दफा १ (पूर्ण)" : String).data] := by
  refine ⟨rfl, rfl, rfl, rfl, ?_⟩
  have h : (parse_act_chunks an ("ab12cd34" : String).data exC7).map (fun c => c.citation) =
      [(an ++ (", दफा " : String).data) ++ ("१" : String).data,
       (((an ++ (", दफा " : String).data) ++ ("१" : String).data) ++
         ("(१" : String).data) ++ [')'],
       ((((an ++ (", दफा " : String).data) ++ ("१" : String).data) ++
         ("(१)" : String).data) ++ ("(क" : String).data) ++ [')'],
       ((an ++ (", दफा " : String).data) ++ ("१" : String).data) ++
         (" (पूर्ण)" : String).data] := rfl
  rw [h]
  simp only [List.append_assoc]
  rfl

/-- C7 (witness).  The amended theorem at the concrete act name `ऐन`. -/
theorem c7_example_parse_witness :
    (parse_act_chunks ("ऐन" : String).data ("ab12cd34" : String).data exC7).map
        (fun c => c.chunk_id) =
      [("ab12cd34_१" : String).data, ("ab12cd34_१_१" : String).data,
       ("ab12cd34_१_१_क" : String).data, ("ab12cd34_१_full" : String).data] ∧
    (parse_act_chunks ("ऐन" : String).data ("ab12cd34" : String).data exC7).map
        (fun c => c.citation) =
      [("ऐन, दफा १" : String).data, ("ऐन, दफा १(१)" : String).data,
       ("ऐन, दफा १(१)(क)" : String).data, ("ऐन, दफा १ (पूर्ण)" : String).data] :=
  ⟨(c7_example_parse ("ऐन" : String).data).1, (c7_example_parse ("ऐन" : String).data).2.2.2.2⟩

/-! ### Claim C8: page segmentation -/

theorem processMarked_page (an ai : List Char) (pg : Nat) (st : PState) (line : List Char)
    (h : ∀ c ∈ st.chunks, c.page_no = pg) :
    ∀ c ∈ (processMarked an ai pg st line).chunks, c.page_no = pg := by
  unfold processMarked
  split
  · exact h
  · split
    · exact h
    · split
      · simp only [emitSection]
        intro c hc
        rcases List.mem_append.mp hc with h2 | h2
        · exact h c h2
        · rw [List.mem_singleton.mp h2]
      · split
        · simp only [emitSub]
          intro c hc
          rcases List.mem_append.mp hc with h2 | h2
          · exact h c h2
          · rw [List.mem_singleton.mp h2]
        · split
          · simp only [emitClause]
            intro c hc
            rcases List.mem_append.mp hc with h2 | h2
            · exact h c h2
            · rw [List.mem_singleton.mp h2]
          · split
            · exact h
            · exact mem_modifyLast (fun c => c.page_no = pg) (contAppend line)
                (fun c hc => hc) st.chunks h

theorem processLine_page (an ai : List Char) (pg : Nat) (st : PState) (line : List Char)
    (h : ∀ c ∈ st.chunks, c.page_no = pg) :
    ∀ c ∈ (processLine an ai pg st line).chunks, c.page_no = pg := by
  unfold processLine processStripped
  split
  · exact h
  · split
    · exact processMarked_page an ai pg _ _ h
    · exact h

theorem comp_page (an ai : List Char) (chunks : List Chunk) (pg : Nat)
    (h : ∀ c ∈ chunks, c.page_no = pg) :
    ∀ c ∈ create_comprehensive_chunks an ai chunks, c.page_no = pg := by
  intro c hc
  simp only [create_comprehensive_chunks] at hc
  rcases List.mem_filterMap.mp hc with ⟨d, _, hsome⟩
  split at hsome
  · rename_i hlen
    have hne : (List.filter (fun c => c.dapha_no = d)
        (List.filter (fun c => isAtomicType c.type) chunks)) ≠ [] := by
      intro he
      rw [he] at hlen
      simp at hlen
    have hmem2 : (List.filter (fun c => c.dapha_no = d)
        (List.filter (fun c => isAtomicType c.type) chunks)).headI ∈ chunks :=
      List.mem_of_mem_filter (List.mem_of_mem_filter (headI_mem_of_ne hne))
    have hpg := h _ hmem2
    rw [← Option.some.inj hsome]
    exact hpg
  · exact Option.noConfusion hsome

/-- C8 (counterexample).  The input `x --- PAGE x` followed by a valid
section line contains the substring `--- PAGE` but no marker of the full
form `--- PAGE <n> ---`; the claim says such a text is parsed in full as
page 1, but the code finds the guard substring, `re.split` never matches,
and the page loop (which starts at index 1) processes nothing — zero
chunks, although the same lines processed as a single page yield a chunk. -/
theorem c8_counterexample :
    findPageMarker ("x --- PAGE x\n१. क" : String).data.length
        ("x --- PAGE x\n१. क" : String).data = none ∧
    parse_act_chunks ("ऐन" : String).data ("a1b2c3d4" : String).data
        ("x --- PAGE x\n१. क" : String).data = [] ∧
    ¬ ((splitNl ("x --- PAGE x\n१. क" : String).data).foldl
        (fun st line => processLine ("ऐन" : String).data ("a1b2c3d4" : String).data 1 st line)
        initState).chunks = [] := by
  decide

/-- C8 (amended).  Page bodies are split on the literal marker
`--- PAGE <n> ---`; for every input text in which the guard substring
`--- PAGE` does not occur, the whole text is one page numbered 1 and every
chunk of the parse carries `page_no = 1`. -/
theorem c8_single_page (an ai raw : List Char)
    (hnp : containsSub pageGuardLit raw = false) :
    pagesOf raw = [(1, raw)] ∧ ∀ c ∈ parse_act_chunks an ai raw, c.page_no = 1 := by
  have hp : pagesOf raw = [(1, raw)] := by
    unfold pagesOf
    rw [hnp]
    rfl
  refine ⟨hp, ?_⟩
  have hst : ∀ c ∈ (parseState an ai raw).chunks, c.page_no = 1 := by
    unfold parseState
    rw [hp]
    simp only [List.foldl_cons, List.foldl_nil]
    exact foldl_inv (fun st => ∀ c ∈ st.chunks, c.page_no = 1) (fun _ => True) _
      (fun s line hs _ => processLine_page an ai 1 s line hs)
      (splitNl raw) initState (fun c hc => absurd hc (List.not_mem_nil c))
      (fun _ _ => trivial)
  intro c hc
  simp only [parse_act_chunks] at hc
  split at hc
  · exact hst c hc
  · rcases List.mem_append.mp hc with h2 | h2
    · exact hst c h2
    · exact comp_page an ai _ 1 hst c h2

/-- C8 (witness).  The amended theorem at a concrete two-line,
marker-free input. -/
theorem c8_single_page_witness :
    pagesOf ("१. क\n(१) ख" : String).data = [(1, ("१. क\n(१) ख" : String).data)] ∧
    ∀ c ∈ parse_act_chunks ("नाम" : String).data ("beadface" : String).data
        ("१. क\n(१) ख" : String).data, c.page_no = 1 :=
  c8_single_page ("नाम" : String).data ("beadface" : String).data
    ("१. क\n(१) ख" : String).data (by decide)

/-! ### Claim C9: Part/Chapter markers are frame-preserving -/

theorem processLine_part_frame (an ai : List Char) (pg : Nat) (st : PState)
    (line n t : List Char)
    (h : st.anchorFound = true) (hm : matchPart (pyStrip line) = some (n, t)) :
    processLine an ai pg st line =
      { st with part := partLit ++ ' ' :: n ++ ':' :: ' ' :: clean_text t } := by
  unfold processLine processStripped
  rw [matchPart_nonempty hm, h]
  simp only [Bool.true_or, if_true, Bool.false_eq_true, if_false]
  unfold processMarked
  rw [hm]

theorem processLine_chapter_frame (an ai : List Char) (pg : Nat) (st : PState)
    (line n t : List Char)
    (h : st.anchorFound = true) (hm : matchChapter (pyStrip line) = some (n, t)) :
    processLine an ai pg st line =
      { st with chapter := chapterLit ++ ' ' :: n ++ ':' :: ' ' :: clean_text t } := by
  have hpart : matchPart (pyStrip line) = none := by
    cases hl : pyStrip line with
    | nil => rw [hl] at hm; exact absurd hm (by simp [matchChapter, startsWithL, chapterLit])
    | cons a t2 =>
      rw [hl] at hm
      have ha : a = 'प' := by
        unfold matchChapter at hm
        split at hm
        · rename_i hs; exact @startsWithL_headI 'प' _ _ _ hs
        · exact Option.noConfusion hm
      exact matchPart_none_of_head (by rw [ha]; decide)
  unfold processLine processStripped
  rw [matchChapter_nonempty hm, h]
  simp only [Bool.true_or, if_true, Bool.false_eq_true, if_false]
  unfold processMarked
  rw [hpart, hm]

/-- C9.  During PARSING (anchor already found), a line matching the Part
pattern only replaces the running `current_part` label — the chunk list,
section/subsection state, chapter label, counters, and everything else in
the parser state are untouched and no chunk is emitted; likewise a line
matching the Chapter pattern only replaces `current_chapter`.  (The record
update in the conclusion fixes every other field of the state.) -/
theorem c9_part_chapter_frame (an ai : List Char) (pg : Nat) :
    (∀ (st : PState) (line n t : List Char), st.anchorFound = true →
       matchPart (pyStrip line) = some (n, t) →
       processLine an ai pg st line =
         { st with part := partLit ++ ' ' :: n ++ ':' :: ' ' :: clean_text t }) ∧
    (∀ (st : PState) (line n t : List Char), st.anchorFound = true →
       matchChapter (pyStrip line) = some (n, t) →
       processLine an ai pg st line =
         { st with chapter := chapterLit ++ ' ' :: n ++ ':' :: ' ' :: clean_text t }) :=
  ⟨fun st line n t h hm => processLine_part_frame an ai pg st line n t h hm,
   fun st line n t h hm => processLine_chapter_frame an ai pg st line n t h hm⟩

/-- C9 (witness).  The frame theorem applied to the concrete Part line
`भाग २ नयाँ भाग` and Chapter line `परिच्छेद ३ शीर्षक` in the
post-anchor initial state. -/
theorem c9_part_chapter_frame_witness :
    processLine ("ऐन" : String).data ("a0b1c2d3" : String).data 1
        { initState with anchorFound := true } ("भाग २ नयाँ भाग" : String).data =
      { { initState with anchorFound := true } with
          part := partLit ++ ' ' :: ("२" : String).data ++ ':' :: ' ' ::
            clean_text ("नयाँ भाग" : String).data } ∧
    processLine ("ऐन" : String).data ("a0b1c2d3" : String).data 1
        { initState with anchorFound := true } ("परिच्छेद ३ शीर्षक" : String).data =
      { { initState with anchorFound := true } with
          chapter := chapterLit ++ ' ' :: ("३" : String).data ++ ':' :: ' ' ::
            clean_text ("शीर्षक" : String).data } :=
  ⟨(c9_part_chapter_frame ("ऐन" : String).data ("a0b1c2d3" : String).data 1).1
     { initState with anchorFound := true } ("भाग २ नयाँ भाग" : String).data
     ("२" : String).data ("नयाँ भाग" : String).data rfl (by decide),
   (c9_part_chapter_frame ("ऐन" : String).data ("a0b1c2d3" : String).data 1).2
     { initState with anchorFound := true } ("परिच्छेद ३ शीर्षक" : String).data
     ("३" : String).data ("शीर्षक" : String).data rfl (by decide)⟩

/-! ### Claim C10: continuation lines touch only the current chunk's text -/

/-- C10.  During PARSING, a nonempty stripped line matching none of the
five marker patterns, arriving while the chunk list is `rest ++ [c]`,
yields the state whose chunk list is `rest ++ [c']` where `c'` differs
from `c` only in `content` and `content_with_context` (each extended by a
space and the cleaned line); every metadata field of `c` — including
`cross_references`, `citation` and `page_no` — and every earlier chunk are
unchanged, so continuation text is never scanned for cross-references. -/
theorem c10_continuation_frame (an ai : List Char) (pg : Nat) (st : PState)
    (line : List Char) (rest : List Chunk) (c : Chunk)
    (h : st.anchorFound = true)
    (hp : matchPart (pyStrip line) = none) (hc : matchChapter (pyStrip line) = none)
    (hs : matchSection (pyStrip line) = none) (hsub : matchSub (pyStrip line) = none)
    (hcl : matchClause (pyStrip line) = none)
    (hne : (pyStrip line).isEmpty = false)
    (hch : st.chunks = rest ++ [c]) :
    processLine an ai pg st line =
      { st with
          chunks := rest ++ [{ c with
            content := c.content ++ ' ' :: clean_text (pyStrip line)
            content_with_context :=
              c.content_with_context ++ ' ' :: clean_text (pyStrip line) }]
          secFull := st.secFull ++ [clean_text (pyStrip line)] } := by
  unfold processLine processStripped
  rw [hne, h]
  simp only [Bool.true_or, if_true, Bool.false_eq_true, if_false]
  unfold processMarked
  rw [hp, hc, hs, hsub, hcl, hch]
  rw [show (rest ++ [c]).isEmpty = false from by simp]
  simp only [Bool.false_eq_true, if_false]
  rw [modifyLast_append_singleton]
  rfl

/-- C10 (witness).  The frame theorem applied to a concrete state holding
one chunk and the continuation line `नयाँ पाठ`. -/
theorem c10_continuation_frame_witness :
    processLine ("क" : String).data ("a9b8c7d6" : String).data 1
        { initState with anchorFound := true, chunks := [(default : Chunk)] }
        ("नयाँ पाठ" : String).data =
      { { initState with anchorFound := true, chunks := [(default : Chunk)] } with
          chunks := [] ++ [{ (default : Chunk) with
            content := (default : Chunk).content ++ ' ' ::
              clean_text (pyStrip ("नयाँ पाठ" : String).data)
            content_with_context := (default : Chunk).content_with_context ++ ' ' ::
              clean_text (pyStrip ("नयाँ पाठ" : String).data) }]
          secFull := initState.secFull ++ [clean_text (pyStrip ("नयाँ पाठ" : String).data)] } :=
  c10_continuation_frame ("क" : String).data ("a9b8c7d6" : String).data 1
    { initState with anchorFound := true, chunks := [(default : Chunk)] }
    ("नयाँ पाठ" : String).data [] (default : Chunk)
    rfl (by decide) (by decide) (by decide) (by decide) (by decide) (by decide) rfl

/-! ### Claims C1/C2/C4: the parse-state invariant -/

theorem isNumStr_takeWhile {l : List Char} (hne : ¬ (l.takeWhile numCh).isEmpty = true) :
    isNumStr (l.takeWhile numCh) = true := by
  unfold isNumStr
  simp only [Bool.and_eq_true]
  constructor
  · simpa using hne
  · exact List.all_eq_true.mpr (fun x hx => List.mem_takeWhile_imp hx)

theorem matchSection_num {l n t : List Char} (h : matchSection l = some (n, t)) :
    isNumStr n = true := by
  unfold matchSection at h
  split at h
  · exact Option.noConfusion h
  · rename_i hne
    split at h
    · have hn : n = l.takeWhile numCh := (congrArg Prod.fst (Option.some.inj h)).symm
      subst hn
      exact isNumStr_takeWhile hne
    · exact Option.noConfusion h

theorem matchSub_num {l n t : List Char} (h : matchSub l = some (n, t)) :
    isNumStr n = true := by
  unfold matchSub at h
  split at h
  · rename_i rest
    split at h
    · exact Option.noConfusion h
    · rename_i hne
      split at h
      · have hn : n = rest.takeWhile numCh := (congrArg Prod.fst (Option.some.inj h)).symm
        subst hn
        exact isNumStr_takeWhile hne
      · exact Option.noConfusion h
  · exact Option.noConfusion h

theorem matchClause_khanda {l n t : List Char} (h : matchClause l = some (n, t)) :
    isKhandaStr n = true := by
  unfold matchClause at h
  split at h
  · rename_i rest
    split at h
    · exact Option.noConfusion h
    · rename_i hne
      split at h
      · have hn : n = rest.takeWhile khandaCh :=
          (congrArg Prod.fst (Option.some.inj h)).symm
        subst hn
        unfold isKhandaStr
        simp only [Bool.and_eq_true]
        exact ⟨by simpa using hne,
          List.all_eq_true.mpr (fun x hx => List.mem_takeWhile_imp hx)⟩
      · exact Option.noConfusion h
  · exact Option.noConfusion h

theorem secDaphas_append (l : List Chunk) (c : Chunk) :
    secDaphas (l ++ [c]) =
      secDaphas l ++ (if c.type = ChunkType.sec then [c.dapha_no] else []) := by
  induction l with
  | nil => simp [secDaphas]
  | cons a t ih =>
    show secDaphas (a :: (t ++ [c])) = _
    unfold secDaphas
    split
    · rw [ih]; rfl
    · rw [ih]

theorem mem_secsAcc (x : List Char) :
    ∀ (l : List Chunk) (s : List (List Char)),
      x ∈ secsAcc s l ↔ x ∈ secDaphas l ∨ x ∈ s := by
  intro l
  induction l with
  | nil => intro s; simp [secsAcc, secDaphas]
  | cons a t ih =>
    intro s
    unfold secsAcc secDaphas
    split
    · rename_i hsec
      rw [ih]
      simp [List.mem_cons]
      tauto
    · exact ih s

theorem hierOKgo_append (c : Chunk) :
    ∀ (l : List Chunk) (s : List (List Char)),
      hierOKgo s (l ++ [c]) = (hierOKgo s l && hierChunkOK (secsAcc s l) c) := by
  intro l
  induction l with
  | nil => intro s; simp [hierOKgo, secsAcc]
  | cons a t ih =>
    intro s
    show hierOKgo s (a :: (t ++ [c])) = _
    unfold hierOKgo
    rw [ih]
    rw [Bool.and_assoc]
    rfl

theorem secDaphas_modifyLast (f : Chunk → Chunk)
    (hty : ∀ c, (f c).type = c.type) (hd : ∀ c, (f c).dapha_no = c.dapha_no) :
    ∀ l : List Chunk, secDaphas (modifyLast f l) = secDaphas l := by
  intro l
  induction l with
  | nil => rfl
  | cons a t ih =>
    cases t with
    | nil =>
      show secDaphas [f a] = secDaphas [a]
      unfold secDaphas
      rw [hty a, hd a]
    | cons b t2 =>
      show secDaphas (a :: modifyLast f (b :: t2)) = secDaphas (a :: (b :: t2))
      unfold secDaphas
      rw [ih]

theorem hierOKgo_modifyLast (f : Chunk → Chunk)
    (hty : ∀ c, (f c).type = c.type) (hd : ∀ c, (f c).dapha_no = c.dapha_no) :
    ∀ (l : List Chunk) (s : List (List Char)),
      hierOKgo s (modifyLast f l) = hierOKgo s l := by
  intro l
  induction l with
  | nil => intro s; rfl
  | cons a t ih =>
    intro s
    cases t with
    | nil =>
      show hierOKgo s [f a] = hierOKgo s [a]
      unfold hierOKgo hierChunkOK
      rw [hty a, hd a]
    | cons b t2 =>
      show hierOKgo s (a :: modifyLast f (b :: t2)) = hierOKgo s (a :: (b :: t2))
      unfold hierOKgo
      rw [ih]

theorem isNumStr_not_empty {l : List Char} (h : isNumStr l = true) : l.isEmpty = false := by
  unfold isNumStr at h
  simp only [Bool.and_eq_true] at h
  simpa using h.1

theorem isKhandaStr_not_empty {l : List Char} (h : isKhandaStr l = true) :
    l.isEmpty = false := by
  unfold isKhandaStr at h
  simp only [Bool.and_eq_true] at h
  simpa using h.1

theorem emitSection_sinv (an ai : List Char) (pg : Nat) (st : PState) (n t : List Char)
    (h : SInv ai st) (hn : isNumStr n = true) :
    SInv ai (emitSection an ai pg st n t) := by
  simp only [emitSection]
  refine ⟨?_, ?_, ?_, ?_, ?_, ?_, ?_⟩
  · intro c hc
    rcases List.mem_append.mp hc with h2 | h2
    · exact h.wf c h2
    · rw [List.mem_singleton.mp h2]
      simp [chunkWF, generate_chunk_id, hn]
  · intro c hc
    rcases List.mem_append.mp hc with h2 | h2
    · exact h.atomic c h2
    · rw [List.mem_singleton.mp h2]
      rfl
  · show hierOKgo [] (st.chunks ++ [_]) = true
    rw [hierOKgo_append]
    rw [h.hier]
    rfl
  · intro d hd
    have h2 : n = d := Option.some.inj hd
    rw [← h2]
    exact hn
  · intro d hd
    have h2 : n = d := Option.some.inj hd
    show d ∈ secDaphas (st.chunks ++ [_])
    rw [secDaphas_append]
    rw [← h2]
    simp
  · intro u hu
    exact Option.noConfusion hu
  · intro hnone
    exact Option.noConfusion hnone

theorem emitSub_sinv (an ai : List Char) (pg : Nat) (st : PState) (d n t : List Char)
    (h : SInv ai st) (hsec : st.secNo = some d) (hn : isNumStr n = true) :
    SInv ai (emitSub an ai pg st d n t) := by
  have hd : isNumStr d = true := h.secNum d hsec
  have hdmem : d ∈ secDaphas st.chunks := h.secMem d hsec
  simp only [emitSub]
  refine ⟨?_, ?_, ?_, ?_, ?_, ?_, ?_⟩
  · intro c hc
    rcases List.mem_append.mp hc with h2 | h2
    · exact h.wf c h2
    · rw [List.mem_singleton.mp h2]
      simp [chunkWF, generate_chunk_id, hn, hd, isNumStr_not_empty hn]
  · intro c hc
    rcases List.mem_append.mp hc with h2 | h2
    · exact h.atomic c h2
    · rw [List.mem_singleton.mp h2]
      rfl
  · show hierOKgo [] (st.chunks ++ [_]) = true
    rw [hierOKgo_append]
    rw [h.hier]
    simp only [Bool.true_and]
    unfold hierChunkOK
    simp only [decide_eq_true_eq]
    exact (mem_secsAcc d st.chunks []).mpr (Or.inl hdmem)
  · intro d2 hd2
    have h4 : st.secNo = some d2 := hd2
    have h2 : d = d2 := Option.some.inj (hsec.symm.trans h4)
    rw [← h2]
    exact hd
  · intro d2 hd2
    have h4 : st.secNo = some d2 := hd2
    have h2 : d = d2 := Option.some.inj (hsec.symm.trans h4)
    show d2 ∈ secDaphas (st.chunks ++ [_])
    rw [secDaphas_append]
    rw [← h2]
    simp [hdmem]
  · intro u hu
    have h2 : n = u := Option.some.inj hu
    rw [← h2]
    exact hn
  · intro hnone
    have h4 : st.secNo = none := hnone
    rw [hsec] at h4
    exact Option.noConfusion h4

theorem emitClause_sinv (an ai : List Char) (pg : Nat) (st : PState) (d lab t : List Char)
    (h : SInv ai st) (hsec : st.secNo = some d) (hlab : isKhandaStr lab = true) :
    SInv ai (emitClause an ai pg st d lab t) := by
  have hd : isNumStr d = true := h.secNum d hsec
  have hdmem : d ∈ secDaphas st.chunks := h.secMem d hsec
  simp only [emitClause]
  refine ⟨?_, ?_, ?_, ?_, ?_, ?_, ?_⟩
  · intro c hc
    rcases List.mem_append.mp hc with h2 | h2
    · exact h.wf c h2
    · rw [List.mem_singleton.mp h2]
      cases hsubn : st.subNo with
      | none =>
        simp [chunkWF, generate_chunk_id, hsubn, hlab, hd, isKhandaStr_not_empty hlab]
      | some u =>
        have hu : isNumStr u = true := h.subNum u hsubn
        simp [chunkWF, generate_chunk_id, hsubn, hlab, hd, hu,
          isKhandaStr_not_empty hlab, isNumStr_not_empty hu]
  · intro c hc
    rcases List.mem_append.mp hc with h2 | h2
    · exact h.atomic c h2
    · rw [List.mem_singleton.mp h2]
      rfl
  · show hierOKgo [] (st.chunks ++ [_]) = true
    rw [hierOKgo_append]
    rw [h.hier]
    simp only [Bool.true_and]
    unfold hierChunkOK
    simp only [decide_eq_true_eq]
    exact (mem_secsAcc d st.chunks []).mpr (Or.inl hdmem)
  · intro d2 hd2
    have h4 : st.secNo = some d2 := hd2
    have h2 : d = d2 := Option.some.inj (hsec.symm.trans h4)
    rw [← h2]
    exact hd
  · intro d2 hd2
    have h4 : st.secNo = some d2 := hd2
    have h2 : d = d2 := Option.some.inj (hsec.symm.trans h4)
    show d2 ∈ secDaphas (st.chunks ++ [_])
    rw [secDaphas_append]
    rw [← h2]
    simp [hdmem]
  · intro u hu
    exact h.subNum u hu
  · intro hnone
    have h4 : st.secNo = none := hnone
    rw [hsec] at h4
    exact Option.noConfusion h4

theorem processMarked_sinv (an ai : List Char) (pg : Nat) (st : PState) (line : List Char)
    (h : SInv ai st) : SInv ai (processMarked an ai pg st line) := by
  unfold processMarked
  split
  · exact ⟨h.wf, h.atomic, h.hier, h.secNum, h.secMem, h.subNum, h.chunksNil⟩
  · split
    · exact ⟨h.wf, h.atomic, h.hier, h.secNum, h.secMem, h.subNum, h.chunksNil⟩
    · split
      · rename_i n t heq
        exact emitSection_sinv an ai pg st n t h (matchSection_num heq)
      · split
        · rename_i n t d heqm heqs
          exact emitSub_sinv an ai pg st d n t h heqs (matchSub_num heqm)
        · split
          · rename_i lab t d heqm heqs
            exact emitClause_sinv an ai pg st d lab t h heqs (matchClause_khanda heqm)
          · split
            · exact ⟨h.wf, h.atomic, h.hier, h.secNum, h.secMem, h.subNum, h.chunksNil⟩
            · rename_i hne
              refine ⟨?_, ?_, ?_, h.secNum, ?_, h.subNum, ?_⟩
              · exact mem_modifyLast (fun c => chunkWF ai c = true) (contAppend line)
                  (fun c hc => hc) st.chunks h.wf
              · exact mem_modifyLast (fun c => isAtomicType c.type = true) (contAppend line)
                  (fun c hc => hc) st.chunks h.atomic
              · show hierOKgo [] (modifyLast (contAppend line) st.chunks) = true
                rw [hierOKgo_modifyLast (contAppend line) (fun c => rfl) (fun c => rfl)]
                exact h.hier
              · intro d hd
                have h4 : st.secNo = some d := hd
                show d ∈ secDaphas (modifyLast (contAppend line) st.chunks)
                rw [secDaphas_modifyLast (contAppend line) (fun c => rfl) (fun c => rfl)]
                exact h.secMem d h4
              · intro hnone
                have h4 : st.secNo = none := hnone
                show modifyLast (contAppend line) st.chunks = []
                rw [h.chunksNil h4]
                rfl

theorem processLine_sinv (an ai : List Char) (pg : Nat) (st : PState) (line : List Char)
    (h : SInv ai st) : SInv ai (processLine an ai pg st line) := by
  unfold processLine processStripped
  split
  · exact h
  · split
    · exact processMarked_sinv an ai pg _ _
        ⟨h.wf, h.atomic, h.hier, h.secNum, h.secMem, h.subNum, h.chunksNil⟩
    · exact h

theorem parseState_sinv (an ai raw : List Char) : SInv ai (parseState an ai raw) := by
  unfold parseState
  refine foldl_inv (SInv ai) (fun _ => True) _ ?_ (pagesOf raw) initState
    ?_ (fun _ _ => trivial)
  · intro s pg hs _
    exact foldl_inv (SInv ai) (fun _ => True) _
      (fun s2 line hs2 _ => processLine_sinv an ai pg.1 s2 line hs2)
      (splitNl pg.2) s hs (fun _ _ => trivial)
  · exact ⟨fun c hc => absurd hc (List.not_mem_nil c),
      fun c hc => absurd hc (List.not_mem_nil c), rfl,
      fun d hd => Option.noConfusion hd, fun d hd => Option.noConfusion hd,
      fun u hu => Option.noConfusion hu, fun _ => rfl⟩

theorem hierOKgo_cons (s : List (List Char)) (a : Chunk) (l : List Chunk) :
    hierOKgo s (a :: l) =
      (hierChunkOK s a &&
        hierOKgo (if a.type = ChunkType.sec then a.dapha_no :: s else s) l) := rfl

theorem hierOKgo_append2 (l2 : List Chunk) :
    ∀ (l1 : List Chunk) (s : List (List Char)),
      hierOKgo s (l1 ++ l2) = (hierOKgo s l1 && hierOKgo (secsAcc s l1) l2) := by
  intro l1
  induction l1 with
  | nil => intro s; simp [hierOKgo, secsAcc]
  | cons a t ih =>
    intro s
    rw [List.cons_append, hierOKgo_cons, hierOKgo_cons, ih, Bool.and_assoc]
    rfl

theorem hierOKgo_all_comp (C : List Chunk)
    (h : ∀ c ∈ C, c.type = ChunkType.comprehensive) :
    ∀ s, hierOKgo s C = true := by
  induction C with
  | nil => intro s; rfl
  | cons a t ih =>
    intro s
    unfold hierOKgo
    rw [Bool.and_eq_true]
    constructor
    · unfold hierChunkOK
      rw [h a (by simp)]
    · exact ih (fun c hc => h c (List.mem_cons_of_mem a hc)) _

theorem comp_types (an ai : List Char) (l : List Chunk) :
    ∀ c ∈ create_comprehensive_chunks an ai l, c.type = ChunkType.comprehensive := by
  intro c hc
  simp only [create_comprehensive_chunks] at hc
  rcases List.mem_filterMap.mp hc with ⟨d, _, hsome⟩
  split at hsome
  · rw [← Option.some.inj hsome]
  · exact Option.noConfusion hsome

theorem hierOKgo_spec :
    ∀ (l : List Chunk) (s : List (List Char)), hierOKgo s l = true →
      ∀ i (hi : i < l.length),
        ((l.get ⟨i, hi⟩).type = ChunkType.subsec ∨
         (l.get ⟨i, hi⟩).type = ChunkType.clause) →
        (l.get ⟨i, hi⟩).dapha_no ∈ s ∨
          ∃ j, ∃ (hj : j < l.length), j < i ∧ (l.get ⟨j, hj⟩).type = ChunkType.sec ∧
            (l.get ⟨j, hj⟩).dapha_no = (l.get ⟨i, hi⟩).dapha_no := by
  intro l
  induction l with
  | nil => intro s _ i hi; exact absurd hi (by simp)
  | cons a t ih =>
    intro s hOK i hi hty
    unfold hierOKgo at hOK
    rw [Bool.and_eq_true] at hOK
    cases i with
    | zero =>
      left
      have h1 := hOK.1
      unfold hierChunkOK at h1
      rcases hty with h2 | h2
      · rw [show ((a :: t).get ⟨0, hi⟩) = a from rfl] at h2 ⊢
        rw [h2] at h1
        exact of_decide_eq_true h1
      · rw [show ((a :: t).get ⟨0, hi⟩) = a from rfl] at h2 ⊢
        rw [h2] at h1
        exact of_decide_eq_true h1
    | succ i2 =>
      have hi2 : i2 < t.length := by simpa using hi
      have hget : (a :: t).get ⟨i2 + 1, hi⟩ = t.get ⟨i2, hi2⟩ := rfl
      have hres := ih (if a.type = ChunkType.sec then a.dapha_no :: s else s) hOK.2
        i2 hi2 (by rw [hget] at hty; exact hty)
      rcases hres with hmem | ⟨j, hj, hlt, hsec, hdap⟩
      · by_cases hsec : a.type = ChunkType.sec
        · rw [if_pos hsec] at hmem
          rcases List.mem_cons.mp hmem with heq | hmem2
          · right
            refine ⟨0, by simp, Nat.succ_pos i2, hsec, ?_⟩
            rw [hget]
            exact heq.symm
          · left
            rw [hget]
            exact hmem2
        · rw [if_neg hsec] at hmem
          left
          rw [hget]
          exact hmem
      · right
        refine ⟨j + 1, by simpa using hj, Nat.succ_lt_succ hlt, hsec, ?_⟩
        rw [hget]
        exact hdap

theorem matchSub_head {l : List Char} {r : List Char × List Char}
    (h : matchSub l = some r) : ∃ rest, l = '(' :: rest := by
  unfold matchSub at h
  split at h
  · rename_i rest
    exact ⟨rest, rfl⟩
  · exact Option.noConfusion h

theorem matchClause_head {l : List Char} {r : List Char × List Char}
    (h : matchClause l = some r) : ∃ rest, l = '(' :: rest := by
  unfold matchClause at h
  split at h
  · rename_i rest
    exact ⟨rest, rfl⟩
  · exact Option.noConfusion h

theorem parse_hierOK (an ai raw : List Char) :
    hierOKgo [] (parse_act_chunks an ai raw) = true := by
  simp only [parse_act_chunks]
  split
  · exact (parseState_sinv an ai raw).hier
  · rw [hierOKgo_append2]
    rw [(parseState_sinv an ai raw).hier]
    rw [hierOKgo_all_comp _ (comp_types an ai _) _]
    rfl

theorem processMarked_nochunk (an ai : List Char) (pg : Nat) (st : PState)
    (line : List Char) (h1 : st.secNo = none) (h2 : st.chunks = [])
    (hm : (matchSub line).isSome = true ∨ (matchClause line).isSome = true) :
    (processMarked an ai pg st line).chunks = [] := by
  have hhead : ∃ rest, line = '(' :: rest := by
    rcases hm with hm | hm
    · rcases Option.isSome_iff_exists.mp hm with ⟨r, hr⟩
      exact matchSub_head hr
    · rcases Option.isSome_iff_exists.mp hm with ⟨r, hr⟩
      exact matchClause_head hr
  rcases hhead with ⟨rest, hline⟩
  subst hline
  have hsect : matchSection ('(' :: rest) = none := matchSection_none_of_head (by decide)
  exact (processMarked_nosec an ai pg st _ h1 h2 hsect).2

/-- C2.  Every `sub_section`/`clause` chunk of `parse_act`'s output is
preceded, in parse order, by a `section` chunk with the same section
number (`dapha_no`); and a line matching the subsection or clause pattern
that arrives while no section is open (`current_section_no` unset, hence
no chunks yet) produces no chunk. -/
theorem c2_hierarchy_invariant (an ai raw : List Char) (pg : Nat) :
    (∀ i (hi : i < (parse_act_chunks an ai raw).length),
       (((parse_act_chunks an ai raw).get ⟨i, hi⟩).type = ChunkType.subsec ∨
        ((parse_act_chunks an ai raw).get ⟨i, hi⟩).type = ChunkType.clause) →
       ∃ j, ∃ (hj : j < (parse_act_chunks an ai raw).length), j < i ∧
         ((parse_act_chunks an ai raw).get ⟨j, hj⟩).type = ChunkType.sec ∧
         ((parse_act_chunks an ai raw).get ⟨j, hj⟩).dapha_no =
           ((parse_act_chunks an ai raw).get ⟨i, hi⟩).dapha_no) ∧
    (∀ (st : PState) (line : List Char), st.secNo = none → st.chunks = [] →
       ((matchSub (pyStrip line)).isSome = true ∨
        (matchClause (pyStrip line)).isSome = true) →
       (processLine an ai pg st line).chunks = []) := by
  constructor
  · intro i hi hty
    rcases hierOKgo_spec (parse_act_chunks an ai raw) [] (parse_hierOK an ai raw)
        i hi hty with hmem | hex
    · exact absurd hmem (List.not_mem_nil _)
    · exact hex
  · intro st line h1 h2 hm
    unfold processLine processStripped
    split
    · exact h2
    · split
      · exact processMarked_nochunk an ai pg _ _ h1 h2 hm
      · exact h2

/-- C2 (witness).  The hierarchy theorem applied to a concrete two-line
act (the subsection chunk at index 1 has an earlier matching section
chunk) and to a concrete orphan subsection line in the initial state. -/
theorem c2_hierarchy_invariant_witness :
    (∃ j, ∃ (hj : j < (parse_act_chunks ("ऐन" : String).data ("c0ffee00" : String).data
          ("१. क\n(१) ख" : String).data).length), j < 1 ∧
       ((parse_act_chunks ("ऐन" : String).data ("c0ffee00" : String).data
          ("१. क\n(१) ख" : String).data).get ⟨j, hj⟩).type = ChunkType.sec ∧
       ((parse_act_chunks ("ऐन" : String).data ("c0ffee00" : String).data
          ("१. क\n(१) ख" : String).data).get ⟨j, hj⟩).dapha_no =
         ((parse_act_chunks ("ऐन" : String).data ("c0ffee00" : String).data
          ("१. क\n(१) ख" : String).data).get ⟨1, by decide⟩).dapha_no) ∧
    (processLine ("ऐन" : String).data ("c0ffee00" : String).data 1 initState
       ("(१) अनाथ" : String).data).chunks = [] :=
  ⟨(c2_hierarchy_invariant ("ऐन" : String).data ("c0ffee00" : String).data
      ("१. क\n(१) ख" : String).data 1).1 1 (by decide) (Or.inl (by decide)),
   (c2_hierarchy_invariant ("ऐन" : String).data ("c0ffee00" : String).data
      ("१. क\n(१) ख" : String).data 1).2 initState ("(१) अनाथ" : String).data
      rfl rfl (Or.inl (by decide))⟩

/-! ### Claim C4: the aggregation law -/

theorem mem_dedupF {x : List Char} : ∀ {l : List (List Char)}, x ∈ dedupF l ↔ x ∈ l := by
  intro l
  induction l with
  | nil => simp [dedupF]
  | cons a t ih =>
    unfold dedupF
    simp only [List.mem_cons, List.mem_filter]
    constructor
    · intro h
      rcases h with h | h
      · exact Or.inl h
      · exact Or.inr (ih.mp h.1)
    · intro h
      rcases h with h | h
      · exact Or.inl h
      · by_cases hx : x = a
        · exact Or.inl hx
        · exact Or.inr ⟨ih.mpr h, by simpa using hx⟩

theorem dedupF_nodup : ∀ (l : List (List Char)), (dedupF l).Nodup := by
  intro l
  induction l with
  | nil => exact List.nodup_nil
  | cons a t ih =>
    unfold dedupF
    refine List.Nodup.cons ?_ (List.Nodup.filter _ ih)
    intro hmem
    have := (List.mem_filter.mp hmem).2
    simp at this

theorem filterMap_filter_dapha
    (F : List Char → Option Chunk) (d : List Char)
    (hF : ∀ d2 c, F d2 = some c →
      c.dapha_no = d2 ∧ c.type = ChunkType.comprehensive) :
    ∀ ds : List (List Char), ds.Nodup →
      (ds.filterMap F).filter
          (fun c => c.type = ChunkType.comprehensive && c.dapha_no = d) =
        (if d ∈ ds then (F d).toList.filter
          (fun c => c.type = ChunkType.comprehensive && c.dapha_no = d) else []) := by
  intro ds
  induction ds with
  | nil => intro _; simp
  | cons a t ih =>
    intro hnd
    rw [List.filterMap_cons]
    rcases List.nodup_cons.mp hnd with ⟨hna, hnt⟩
    by_cases had : a = d
    · subst had
      rw [if_pos (by simp)]
      cases hFa : F a with
      | none =>
        simp only [Option.toList, List.filter_nil]
        rw [ih hnt]
        rw [if_neg hna]
      | some c =>
        rw [List.filter_cons]
        have hc := hF a c hFa
        rw [ih hnt, if_neg hna]
        simp [hc.1, hc.2, Option.toList, List.filter_cons]
    · have hda : d ∉ a :: t ↔ d ∉ t := by
        constructor
        · intro hno hmem
          exact hno (List.mem_cons_of_mem a hmem)
        · intro hno hmem
          rcases List.mem_cons.mp hmem with h | h
          · exact had h.symm
          · exact hno h
      cases hFa : F a with
      | none =>
        rw [ih hnt]
        by_cases hd : d ∈ t
        · rw [if_pos hd, if_pos (List.mem_cons_of_mem a hd)]
        · rw [if_neg hd, if_neg (hda.mpr hd)]
      | some c =>
        rw [List.filter_cons]
        have hc := hF a c hFa
        have hne : (decide (c.type = ChunkType.comprehensive) &&
            decide (c.dapha_no = d)) = false := by
          rw [hc.1, hc.2]
          simp
          exact had
        rw [hne]
        simp only [Bool.false_eq_true, if_false]
        rw [ih hnt]
        by_cases hd : d ∈ t
        · rw [if_pos hd, if_pos (List.mem_cons_of_mem a hd)]
        · rw [if_neg hd, if_neg (hda.mpr hd)]

theorem isAtomic_not_comp {ty : ChunkType} (h : isAtomicType ty = true) :
    (decide (ty = ChunkType.comprehensive)) = false := by
  cases ty <;> simp_all [isAtomicType]

theorem filter_comp_of_atomic (A : List Chunk) (d : List Char)
    (h : ∀ c ∈ A, isAtomicType c.type = true) :
    A.filter (fun c => c.type = ChunkType.comprehensive && c.dapha_no = d) = [] := by
  rw [List.filter_eq_nil_iff]
  intro c hc
  rw [Bool.and_eq_true, decide_eq_true_eq]
  intro hcontra
  have := isAtomic_not_comp (h c hc)
  rw [hcontra.1] at this
  simp at this

theorem filter_atomic_of_comp (C : List Chunk) (d : List Char)
    (h : ∀ c ∈ C, c.type = ChunkType.comprehensive) :
    C.filter (fun c => isAtomicType c.type && c.dapha_no = d) = [] := by
  rw [List.filter_eq_nil_iff]
  intro c hc
  rw [Bool.and_eq_true]
  intro hcontra
  rw [h c hc] at hcontra
  simp [isAtomicType] at hcontra

theorem create_comp_dapha_filter (an ai : List Char) (A : List Chunk) (d : List Char) :
    (create_comprehensive_chunks an ai A).filter
        (fun c => c.type = ChunkType.comprehensive && c.dapha_no = d) =
      (if d ∈ dedupF (List.map (fun c => c.dapha_no)
            (List.filter (fun c => isAtomicType c.type) A))
       then (if 1 < (List.filter (fun c => c.dapha_no = d)
              (List.filter (fun c => isAtomicType c.type) A)).length
             then [{ content := joinNl (List.map (fun c => c.content)
                      (List.filter (fun c => c.dapha_no = d)
                        (List.filter (fun c => isAtomicType c.type) A)))
                     content_with_context := joinNl (List.map (fun c => c.content)
                      (List.filter (fun c => c.dapha_no = d)
                        (List.filter (fun c => isAtomicType c.type) A)))
                     chunk_id := joinU [ai, d, ("full" : String).data]
                     act_name := an, act_identifier := ai
                     part := (List.filter (fun c => c.dapha_no = d)
                        (List.filter (fun c => isAtomicType c.type) A)).headI.part
                     chapter := (List.filter (fun c => c.dapha_no = d)
                        (List.filter (fun c => isAtomicType c.type) A)).headI.chapter
                     dapha_no := d, sub_section_no := none, khanda_label := none
                     citation := an ++ (", दफा " : String).data ++ d ++
                       (" (पूर्ण)" : String).data
                     page_no := (List.filter (fun c => c.dapha_no = d)
                        (List.filter (fun c => isAtomicType c.type) A)).headI.page_no
                     type := ChunkType.comprehensive
                     is_definition := none, parent_section_title := none
                     cross_references := [], hierarchy_level := 0
                     sub_chunk_count := some (List.filter (fun c => c.dapha_no = d)
                        (List.filter (fun c => isAtomicType c.type) A)).length }]
             else [])
       else []) := by
  simp only [create_comprehensive_chunks]
  rw [filterMap_filter_dapha _ d ?_ _ (dedupF_nodup _)]
  · split
    · split
      · simp only [Option.toList]
        rw [List.filter_cons]
        rw [if_pos (by simp)]
        rfl
      · rfl
    · rfl
  · intro d2 c h
    split at h
    · exact ⟨(congrArg Chunk.dapha_no (Option.some.inj h)).symm,
        (congrArg Chunk.type (Option.some.inj h)).symm⟩
    · exact Option.noConfusion h

theorem filter_filter_chunk (p q : Chunk → Bool) (l : List Chunk) :
    (l.filter p).filter q = l.filter (fun a => p a && q a) := by
  induction l with
  | nil => rfl
  | cons a t ih =>
    rw [List.filter_cons, List.filter_cons]
    cases hp : p a
    · simp only [Bool.false_eq_true, if_false, Bool.false_and]
      rw [ih]
    · simp only [if_true, Bool.true_and]
      rw [List.filter_cons, ih]

/-- C4.  For every parsed file and section number `d`: if the group of
atomic chunks (types section/sub_section/clause) with `dapha_no = d` has
more than one element, the output contains exactly one
`section_comprehensive` chunk for `d`, whose `content` is the
newline-join of the group's `content` fields in parse order, whose id is
`<act_identifier>_<d>_full` and whose hierarchy level is 0; if the group
has exactly one element, no comprehensive chunk for `d` exists. -/
theorem c4_aggregation_law (an ai raw d : List Char) :
    (1 < ((parse_act_chunks an ai raw).filter
        (fun c => isAtomicType c.type && c.dapha_no = d)).length →
      ((parse_act_chunks an ai raw).filter
          (fun c => c.type = ChunkType.comprehensive && c.dapha_no = d)).length = 1 ∧
      ∀ c ∈ (parse_act_chunks an ai raw).filter
          (fun c => c.type = ChunkType.comprehensive && c.dapha_no = d),
        c.content = joinNl (((parse_act_chunks an ai raw).filter
            (fun c => isAtomicType c.type && c.dapha_no = d)).map (fun x => x.content)) ∧
        c.chunk_id = joinU [ai, d, ("full" : String).data] ∧
        c.hierarchy_level = 0) ∧
    (((parse_act_chunks an ai raw).filter
        (fun c => isAtomicType c.type && c.dapha_no = d)).length = 1 →
      (parse_act_chunks an ai raw).filter
          (fun c => c.type = ChunkType.comprehensive && c.dapha_no = d) = []) := by
  have hAatomic := (parseState_sinv an ai raw).atomic
  simp only [parse_act_chunks]
  split
  · rename_i hemp
    rw [List.isEmpty_iff.mp hemp]
    constructor
    · intro hlen
      simp at hlen
    · intro hlen
      simp at hlen
  · rename_i hemp
    have hg : (((parseState an ai raw).chunks ++
          create_comprehensive_chunks an ai (parseState an ai raw).chunks).filter
            (fun c => isAtomicType c.type && c.dapha_no = d)) =
        List.filter (fun c => c.dapha_no = d)
          (List.filter (fun c => isAtomicType c.type) (parseState an ai raw).chunks) := by
      rw [List.filter_append,
        filter_atomic_of_comp _ d (comp_types an ai _), List.append_nil,
        filter_filter_chunk]
    have hcomp : (((parseState an ai raw).chunks ++
          create_comprehensive_chunks an ai (parseState an ai raw).chunks).filter
            (fun c => c.type = ChunkType.comprehensive && c.dapha_no = d)) =
        (create_comprehensive_chunks an ai (parseState an ai raw).chunks).filter
            (fun c => c.type = ChunkType.comprehensive && c.dapha_no = d) := by
      rw [List.filter_append, filter_comp_of_atomic _ d hAatomic, List.nil_append]
    rw [hg, hcomp, create_comp_dapha_filter an ai _ d]
    constructor
    · intro hlen
      have hmem : d ∈ dedupF (List.map (fun c => c.dapha_no)
          (List.filter (fun c => isAtomicType c.type) (parseState an ai raw).chunks)) := by
        rcases List.length_pos_iff_exists_mem.mp (Nat.lt_of_lt_of_le Nat.zero_lt_one
          (Nat.le_of_lt hlen)) with ⟨c0, hc0⟩
        rcases List.mem_filter.mp hc0 with ⟨hc0m, hc0d⟩
        refine mem_dedupF.mpr (List.mem_map.mpr ⟨c0, hc0m, ?_⟩)
        exact of_decide_eq_true hc0d
      rw [if_pos hmem, if_pos hlen]
      refine ⟨rfl, ?_⟩
      intro c hc
      rw [List.mem_singleton.mp hc]
      exact ⟨rfl, rfl, rfl⟩
    · intro hlen
      split
      · rw [if_neg]
        intro hcontra
        rw [hlen] at hcontra
        exact absurd hcontra (by decide)
      · rfl

/-- C4 (witness).  The aggregation law applied to the three-chunk section
of the worked example (one comprehensive chunk) and to a one-chunk
section (no comprehensive chunk). -/
theorem c4_aggregation_law_witness :
    ((parse_act_chunks ("ऐन" : String).data ("ab12cd34" : String).data exC7).filter
        (fun c => c.type = ChunkType.comprehensive && c.dapha_no = ("१" : String).data)).length
      = 1 ∧
    (parse_act_chunks ("ऐन" : String).data ("feedc0de" : String).data
        ("१. क\n२. ख" : String).data).filter
        (fun c => c.type = ChunkType.comprehensive && c.dapha_no = ("१" : String).data) = [] :=
  ⟨((c4_aggregation_law ("ऐन" : String).data ("ab12cd34" : String).data exC7
      ("१" : String).data).1 (by decide)).1,
   (c4_aggregation_law ("ऐन" : String).data ("feedc0de" : String).data
      ("१. क\n२. ख" : String).data ("१" : String).data).2 (by decide)⟩

/-! ### Claim C1: distinctness of chunk ids -/

theorem num_no_underscore {l : List Char} (h : isNumStr l = true) : '_' ∉ l := by
  unfold isNumStr at h
  rw [Bool.and_eq_true, List.all_eq_true] at h
  intro hmem
  have := h.2 _ hmem
  simp [numCh] at this

theorem kh_no_underscore {l : List Char} (h : isKhandaStr l = true) : '_' ∉ l := by
  unfold isKhandaStr at h
  rw [Bool.and_eq_true, List.all_eq_true] at h
  intro hmem
  have := h.2 _ hmem
  simp [khandaCh] at this

theorem usplit : ∀ (a b x y : List Char), '_' ∉ a → '_' ∉ b →
    a ++ '_' :: x = b ++ '_' :: y → a = b ∧ x = y := by
  intro a
  induction a with
  | nil =>
    intro b x y _ hb h
    cases b with
    | nil =>
      simp at h
      exact ⟨rfl, h⟩
    | cons c b2 =>
      rw [List.nil_append, List.cons_append] at h
      have hc : '_' = c := congrArg List.headI h
      exact absurd (hc ▸ List.mem_cons_self c b2) (hc ▸ hb)
  | cons c a2 ih =>
    intro b x y ha hb h
    cases b with
    | nil =>
      rw [List.cons_append, List.nil_append] at h
      have hc : c = '_' := congrArg List.headI h
      exact absurd (hc ▸ List.mem_cons_self c a2) ha
    | cons c2 b2 =>
      rw [List.cons_append, List.cons_append] at h
      have hc : c = c2 := congrArg List.headI h
      have ht : a2 ++ '_' :: x = b2 ++ '_' :: y := congrArg List.tail h
      have ha2 : '_' ∉ a2 := fun hm => ha (List.mem_cons_of_mem c hm)
      have hb2 : '_' ∉ b2 := fun hm => hb (List.mem_cons_of_mem c2 hm)
      rcases ih b2 x y ha2 hb2 ht with ⟨he1, he2⟩
      exact ⟨by rw [hc, he1], he2⟩

theorem uabsent {a b y : List Char} (ha : '_' ∉ a) (h : a = b ++ '_' :: y) : False := by
  apply ha
  rw [h]
  exact List.mem_append.mpr (Or.inr (List.mem_cons_self _ _))

theorem num_ne_kh {a b : List Char} (hn : isNumStr a = true) (hk : isKhandaStr b = true) :
    ¬ a = b := by
  intro he
  subst he
  unfold isNumStr at hn
  unfold isKhandaStr at hk
  rw [Bool.and_eq_true, List.all_eq_true] at hn hk
  cases a with
  | nil => simp at hn
  | cons c t =>
    have h1 := hn.2 c (List.mem_cons_self c t)
    have h2 := hk.2 c (List.mem_cons_self c t)
    simp only [decide_eq_true_eq] at h1 h2
    unfold khandaCh at h2
    have h2m := of_decide_eq_true h2
    fin_cases h2m <;> simp [numCh] at h1

theorem num_ne_full {a : List Char} (hn : isNumStr a = true) :
    ¬ a = ("full" : String).data := by
  intro he
  rw [he] at hn
  exact absurd hn (by decide)

theorem kh_ne_full {a : List Char} (hk : isKhandaStr a = true) :
    ¬ a = ("full" : String).data := by
  intro he
  rw [he] at hk
  exact absurd hk (by decide)

theorem joinU_two (x y : List Char) : joinU [x, y] = x ++ '_' :: y := rfl

theorem joinU_three (x y z : List Char) : joinU [x, y, z] = x ++ '_' :: (y ++ '_' :: z) := rfl

theorem joinU_four (x y z w : List Char) :
    joinU [x, y, z, w] = x ++ '_' :: (y ++ '_' :: (z ++ '_' :: w)) := rfl

theorem ucancel {ai x y : List Char} (h : ai ++ '_' :: x = ai ++ '_' :: y) : x = y :=
  congrArg List.tail (List.append_cancel_left h)

theorem wf_id_eq_key_eq (ai : List Char) (c1 c2 : Chunk)
    (h1 : chunkWF ai c1 = true) (h2 : chunkWF ai c2 = true)
    (ha1 : isAtomicType c1.type = true) (ha2 : isAtomicType c2.type = true)
    (hid : c1.chunk_id = c2.chunk_id) : chunkKey c1 = chunkKey c2 := by
  unfold chunkKey
  unfold chunkWF at h1 h2
  cases ht1 : c1.type <;> rw [ht1] at h1 ha1 <;> cases ht2 : c2.type <;> rw [ht2] at h2 ha2
  case sec.sec =>
    simp only [Bool.and_eq_true, decide_eq_true_eq] at h1 h2
    obtain ⟨⟨⟨hn1, hs1⟩, hk1⟩, hi1⟩ := h1
    obtain ⟨⟨⟨hn2, hs2⟩, hk2⟩, hi2⟩ := h2
    rw [hi1, hi2, joinU_two, joinU_two] at hid
    rw [hs1, hk1, hs2, hk2, ucancel hid]
  case sec.subsec =>
    simp only [Bool.and_eq_true, decide_eq_true_eq] at h1
    obtain ⟨⟨⟨hn1, _⟩, _⟩, hi1⟩ := h1
    cases hs2 : c2.sub_section_no <;> rw [hs2] at h2
    · simp at h2
    · simp only [Bool.and_eq_true, decide_eq_true_eq] at h2
      obtain ⟨⟨⟨hn2, hu2⟩, hk2⟩, hi2⟩ := h2
      rw [hi1, hi2, joinU_two, joinU_three] at hid
      exact absurd (ucancel hid) (fun he => uabsent (num_no_underscore hn1) he)
  case sec.clause =>
    simp only [Bool.and_eq_true, decide_eq_true_eq] at h1
    obtain ⟨⟨⟨hn1, _⟩, _⟩, hi1⟩ := h1
    cases hk2 : c2.khanda_label <;> rw [hk2] at h2
    · simp at h2
    · cases hs2 : c2.sub_section_no <;> rw [hs2] at h2 <;>
        simp only [Bool.and_eq_true, decide_eq_true_eq] at h2
      · obtain ⟨⟨hn2, hkh2⟩, hi2⟩ := h2
        rw [hi1, hi2, joinU_two, joinU_three] at hid
        exact absurd (ucancel hid) (fun he => uabsent (num_no_underscore hn1) he)
      · obtain ⟨⟨⟨hn2, hu2⟩, hkh2⟩, hi2⟩ := h2
        rw [hi1, hi2, joinU_two, joinU_four] at hid
        exact absurd (ucancel hid) (fun he => uabsent (num_no_underscore hn1) he)
  case subsec.sec =>
    simp only [Bool.and_eq_true, decide_eq_true_eq] at h2
    obtain ⟨⟨⟨hn2, _⟩, _⟩, hi2⟩ := h2
    cases hs1 : c1.sub_section_no <;> rw [hs1] at h1
    · simp at h1
    · simp only [Bool.and_eq_true, decide_eq_true_eq] at h1
      obtain ⟨⟨⟨hn1, hu1⟩, hk1⟩, hi1⟩ := h1
      rw [hi1, hi2, joinU_three, joinU_two] at hid
      exact absurd (ucancel hid.symm) (fun he => uabsent (num_no_underscore hn2) he)
  case subsec.subsec =>
    cases hs1 : c1.sub_section_no <;> rw [hs1] at h1
    · simp at h1
    · cases hs2 : c2.sub_section_no <;> rw [hs2] at h2
      · simp at h2
      · simp only [Bool.and_eq_true, decide_eq_true_eq] at h1 h2
        obtain ⟨⟨⟨hn1, hu1⟩, hk1⟩, hi1⟩ := h1
        obtain ⟨⟨⟨hn2, hu2⟩, hk2⟩, hi2⟩ := h2
        rw [hi1, hi2, joinU_three, joinU_three] at hid
        rcases usplit _ _ _ _ (num_no_underscore hn1) (num_no_underscore hn2)
          (ucancel hid) with ⟨hd, hu⟩
        rw [hd, hu, hk1, hk2]
  case subsec.clause =>
    cases hs1 : c1.sub_section_no <;> rw [hs1] at h1
    · simp at h1
    · simp only [Bool.and_eq_true, decide_eq_true_eq] at h1
      obtain ⟨⟨⟨hn1, hu1⟩, hk1⟩, hi1⟩ := h1
      cases hk2 : c2.khanda_label <;> rw [hk2] at h2
      · simp at h2
      · cases hs2 : c2.sub_section_no <;> rw [hs2] at h2 <;>
          simp only [Bool.and_eq_true, decide_eq_true_eq] at h2
        · obtain ⟨⟨hn2, hkh2⟩, hi2⟩ := h2
          rw [hi1, hi2, joinU_three, joinU_three] at hid
          rcases usplit _ _ _ _ (num_no_underscore hn1) (num_no_underscore hn2)
            (ucancel hid) with ⟨hd, hu⟩
          exact absurd hu (num_ne_kh hu1 hkh2)
        · obtain ⟨⟨⟨hn2, hu2⟩, hkh2⟩, hi2⟩ := h2
          rw [hi1, hi2, joinU_three, joinU_four] at hid
          rcases usplit _ _ _ _ (num_no_underscore hn1) (num_no_underscore hn2)
            (ucancel hid) with ⟨hd, hu⟩
          exact absurd hu (fun he => uabsent (num_no_underscore hu1) he)
  case clause.sec =>
    simp only [Bool.and_eq_true, decide_eq_true_eq] at h2
    obtain ⟨⟨⟨hn2, _⟩, _⟩, hi2⟩ := h2
    cases hk1 : c1.khanda_label <;> rw [hk1] at h1
    · simp at h1
    · cases hs1 : c1.sub_section_no <;> rw [hs1] at h1 <;>
        simp only [Bool.and_eq_true, decide_eq_true_eq] at h1
      · obtain ⟨⟨hn1, hkh1⟩, hi1⟩ := h1
        rw [hi1, hi2, joinU_three, joinU_two] at hid
        exact absurd (ucancel hid.symm) (fun he => uabsent (num_no_underscore hn2) he)
      · obtain ⟨⟨⟨hn1, hu1⟩, hkh1⟩, hi1⟩ := h1
        rw [hi1, hi2, joinU_four, joinU_two] at hid
        exact absurd (ucancel hid.symm) (fun he => uabsent (num_no_underscore hn2) he)
  case clause.subsec =>
    cases hs2 : c2.sub_section_no <;> rw [hs2] at h2
    · simp at h2
    · simp only [Bool.and_eq_true, decide_eq_true_eq] at h2
      obtain ⟨⟨⟨hn2, hu2⟩, hk2⟩, hi2⟩ := h2
      cases hk1 : c1.khanda_label <;> rw [hk1] at h1
      · simp at h1
      · cases hs1 : c1.sub_section_no <;> rw [hs1] at h1 <;>
          simp only [Bool.and_eq_true, decide_eq_true_eq] at h1
        · obtain ⟨⟨hn1, hkh1⟩, hi1⟩ := h1
          rw [hi1, hi2, joinU_three, joinU_three] at hid
          rcases usplit _ _ _ _ (num_no_underscore hn1) (num_no_underscore hn2)
            (ucancel hid) with ⟨hd, hu⟩
          exact absurd hu.symm (num_ne_kh hu2 hkh1)
        · obtain ⟨⟨⟨hn1, hu1⟩, hkh1⟩, hi1⟩ := h1
          rw [hi1, hi2, joinU_four, joinU_three] at hid
          rcases usplit _ _ _ _ (num_no_underscore hn1) (num_no_underscore hn2)
            (ucancel hid) with ⟨hd, hu⟩
          exact absurd hu.symm (fun he => uabsent (num_no_underscore hu2) he)
  case clause.clause =>
    cases hk1 : c1.khanda_label <;> rw [hk1] at h1
    · simp at h1
    · cases hk2 : c2.khanda_label <;> rw [hk2] at h2
      · simp at h2
      · cases hs1 : c1.sub_section_no <;> rw [hs1] at h1 <;>
          cases hs2 : c2.sub_section_no <;> rw [hs2] at h2 <;>
          simp only [Bool.and_eq_true, decide_eq_true_eq] at h1 h2
        · obtain ⟨⟨hn1, hkh1⟩, hi1⟩ := h1
          obtain ⟨⟨hn2, hkh2⟩, hi2⟩ := h2
          rw [hi1, hi2, joinU_three, joinU_three] at hid
          rcases usplit _ _ _ _ (num_no_underscore hn1) (num_no_underscore hn2)
            (ucancel hid) with ⟨hd, hk⟩
          rw [hd, hk]
        · obtain ⟨⟨hn1, hkh1⟩, hi1⟩ := h1
          obtain ⟨⟨⟨hn2, hu2⟩, hkh2⟩, hi2⟩ := h2
          rw [hi1, hi2, joinU_three, joinU_four] at hid
          rcases usplit _ _ _ _ (num_no_underscore hn1) (num_no_underscore hn2)
            (ucancel hid) with ⟨hd, hk⟩
          exact absurd hk (fun he => uabsent (kh_no_underscore hkh1) he)
        · obtain ⟨⟨⟨hn1, hu1⟩, hkh1⟩, hi1⟩ := h1
          obtain ⟨⟨hn2, hkh2⟩, hi2⟩ := h2
          rw [hi1, hi2, joinU_four, joinU_three] at hid
          rcases usplit _ _ _ _ (num_no_underscore hn1) (num_no_underscore hn2)
            (ucancel hid) with ⟨hd, hk⟩
          exact absurd hk.symm (fun he => uabsent (kh_no_underscore hkh2) he)
        · obtain ⟨⟨⟨hn1, hu1⟩, hkh1⟩, hi1⟩ := h1
          obtain ⟨⟨⟨hn2, hu2⟩, hkh2⟩, hi2⟩ := h2
          rw [hi1, hi2, joinU_four, joinU_four] at hid
          rcases usplit _ _ _ _ (num_no_underscore hn1) (num_no_underscore hn2)
            (ucancel hid) with ⟨hd, hrest⟩
          rcases usplit _ _ _ _ (num_no_underscore hu1) (num_no_underscore hu2)
            hrest with ⟨hu, hk⟩
          rw [hd, hu, hk]
  all_goals first
    | exact absurd ha1 (by decide)
    | exact absurd ha2 (by decide)

theorem wf_dapha_num (ai : List Char) (c : Chunk) (h : chunkWF ai c = true) :
    isNumStr c.dapha_no = true := by
  unfold chunkWF at h
  cases ht : c.type <;> rw [ht] at h
  · simp only [Bool.and_eq_true, decide_eq_true_eq] at h
    exact h.1.1.1
  · cases hs : c.sub_section_no <;> rw [hs] at h
    · simp at h
    · simp only [Bool.and_eq_true, decide_eq_true_eq] at h
      exact h.1.1.1
  · cases hk : c.khanda_label <;> rw [hk] at h
    · simp at h
    · cases hs : c.sub_section_no <;> rw [hs] at h <;>
        simp only [Bool.and_eq_true, decide_eq_true_eq] at h
      · exact h.1.1
      · exact h.1.1.1
  · simp only [Bool.and_eq_true, decide_eq_true_eq] at h
    exact h.1

theorem wf_comp_fields (ai : List Char) (c : Chunk) (h : chunkWF ai c = true)
    (ht : c.type = ChunkType.comprehensive) :
    isNumStr c.dapha_no = true ∧
      c.chunk_id = joinU [ai, c.dapha_no, ("full" : String).data] := by
  unfold chunkWF at h
  rw [ht] at h
  simp only [Bool.and_eq_true, decide_eq_true_eq] at h
  exact h

theorem wf_atomic_comp_ne (ai : List Char) (a c : Chunk)
    (hwa : chunkWF ai a = true) (haa : isAtomicType a.type = true)
    (hwc : chunkWF ai c = true) (htc : c.type = ChunkType.comprehensive) :
    ¬ a.chunk_id = c.chunk_id := by
  intro hid
  rcases wf_comp_fields ai c hwc htc with ⟨hnc, hic⟩
  unfold chunkWF at hwa
  cases ht : a.type <;> rw [ht] at hwa haa
  · simp only [Bool.and_eq_true, decide_eq_true_eq] at hwa
    obtain ⟨⟨⟨hn1, _⟩, _⟩, hi1⟩ := hwa
    rw [hi1, hic, joinU_two, joinU_three] at hid
    exact uabsent (num_no_underscore hn1) (ucancel hid)
  · cases hs : a.sub_section_no <;> rw [hs] at hwa
    · simp at hwa
    · simp only [Bool.and_eq_true, decide_eq_true_eq] at hwa
      obtain ⟨⟨⟨hn1, hu1⟩, _⟩, hi1⟩ := hwa
      rw [hi1, hic, joinU_three, joinU_three] at hid
      rcases usplit _ _ _ _ (num_no_underscore hn1) (num_no_underscore hnc)
        (ucancel hid) with ⟨_, hu⟩
      exact num_ne_full hu1 hu
  · cases hk : a.khanda_label <;> rw [hk] at hwa
    · simp at hwa
    · cases hs : a.sub_section_no <;> rw [hs] at hwa <;>
        simp only [Bool.and_eq_true, decide_eq_true_eq] at hwa
      · obtain ⟨⟨hn1, hkh1⟩, hi1⟩ := hwa
        rw [hi1, hic, joinU_three, joinU_three] at hid
        rcases usplit _ _ _ _ (num_no_underscore hn1) (num_no_underscore hnc)
          (ucancel hid) with ⟨_, hu⟩
        exact kh_ne_full hkh1 hu
      · obtain ⟨⟨⟨hn1, hu1⟩, hkh1⟩, hi1⟩ := hwa
        rw [hi1, hic, joinU_four, joinU_three] at hid
        rcases usplit _ _ _ _ (num_no_underscore hn1) (num_no_underscore hnc)
          (ucancel hid) with ⟨_, hu⟩
        exact uabsent (by decide) hu.symm
  · exact absurd haa (by decide)

theorem comp_chunks_wf (an ai : List Char) (A : List Chunk)
    (hA : ∀ c ∈ A, chunkWF ai c = true) :
    ∀ c ∈ create_comprehensive_chunks an ai A, chunkWF ai c = true := by
  intro c hc
  simp only [create_comprehensive_chunks] at hc
  rcases List.mem_filterMap.mp hc with ⟨d, hd, hsome⟩
  split at hsome
  · have hnum : isNumStr d = true := by
      rcases List.mem_map.mp (mem_dedupF.mp hd) with ⟨c0, hc0m, hc0d⟩
      rw [← hc0d]
      exact wf_dapha_num ai c0 (hA c0 (List.mem_of_mem_filter hc0m))
    rw [← Option.some.inj hsome]
    unfold chunkWF
    simp only [Bool.and_eq_true, decide_eq_true_eq]
    exact ⟨hnum, trivial⟩
  · exact Option.noConfusion hsome

theorem filterMap_dapha_sublist (F : List Char → Option Chunk)
    (hF : ∀ d c, F d = some c → c.dapha_no = d) :
    ∀ ds : List (List Char),
      List.Sublist ((ds.filterMap F).map (fun c => c.dapha_no)) ds := by
  intro ds
  induction ds with
  | nil => simp
  | cons a t ih =>
    rw [List.filterMap_cons]
    cases hFa : F a with
    | none => exact List.Sublist.cons a ih
    | some c =>
      rw [List.map_cons, hF a c hFa]
      exact List.Sublist.cons₂ a ih

theorem comp_daphas_nodup (an ai : List Char) (A : List Chunk) :
    ((create_comprehensive_chunks an ai A).map (fun c => c.dapha_no)).Nodup := by
  simp only [create_comprehensive_chunks]
  refine List.Nodup.sublist (filterMap_dapha_sublist _ ?_ _) (dedupF_nodup _)
  intro d c h
  split at h
  · exact (congrArg Chunk.dapha_no (Option.some.inj h)).symm
  · exact Option.noConfusion h

/-- C1 (amended).  If the marker-path keys (section number, optional
subsection number, optional clause label) of the atomic chunks of a parse
are pairwise distinct, then the `chunk_id` values of ALL chunks of that
parse — atomic and comprehensive together — are pairwise distinct:
underscore-joined ids with underscore-free numeral/label components are
injective in the key, comprehensive ids end in the non-numeral component
`full`, and comprehensive chunks carry distinct section numbers. -/
theorem c1_chunk_ids_distinct (an ai raw : List Char)
    (hkeys : (((parse_act_chunks an ai raw).filter
        (fun c => isAtomicType c.type)).map chunkKey).Nodup) :
    ((parse_act_chunks an ai raw).map (fun c => c.chunk_id)).Nodup := by
  have hwf := (parseState_sinv an ai raw).wf
  have hatomic := (parseState_sinv an ai raw).atomic
  simp only [parse_act_chunks] at hkeys ⊢
  by_cases hemp : (parseState an ai raw).chunks.isEmpty = true
  · rw [if_pos hemp] at hkeys ⊢
    rw [List.isEmpty_iff.mp hemp]
    simp
  · rw [if_neg hemp] at hkeys ⊢
    have hCtypes := comp_types an ai (parseState an ai raw).chunks
    have hCfilter : (create_comprehensive_chunks an ai
        (parseState an ai raw).chunks).filter (fun c => isAtomicType c.type) = [] := by
      rw [List.filter_eq_nil_iff]
      intro c hc
      rw [hCtypes c hc]
      simp [isAtomicType]
    rw [List.filter_append, List.filter_eq_self.mpr hatomic, hCfilter,
      List.append_nil] at hkeys
    rw [List.map_append]
    have hCwf := comp_chunks_wf an ai (parseState an ai raw).chunks hwf
    refine List.Nodup.append ?_ ?_ ?_
    · have hpk : (parseState an ai raw).chunks.Pairwise
          (fun a b => chunkKey a ≠ chunkKey b) := List.pairwise_map.mp hkeys
      refine List.pairwise_map.mpr (hpk.imp_of_mem ?_)
      intro a b hma hmb hne hideq
      exact hne (wf_id_eq_key_eq ai a b (hwf a hma) (hwf b hmb)
        (hatomic a hma) (hatomic b hmb) hideq)
    · have hdn := comp_daphas_nodup an ai (parseState an ai raw).chunks
      have hpd : (create_comprehensive_chunks an ai (parseState an ai raw).chunks).Pairwise
          (fun a b => a.dapha_no ≠ b.dapha_no) := List.pairwise_map.mp hdn
      refine List.pairwise_map.mpr (hpd.imp_of_mem ?_)
      intro a b hma hmb hne hideq
      rcases wf_comp_fields ai a (hCwf a hma) (hCtypes a hma) with ⟨hna, hia⟩
      rcases wf_comp_fields ai b (hCwf b hmb) (hCtypes b hmb) with ⟨hnb, hib⟩
      rw [hia, hib, joinU_three, joinU_three] at hideq
      rcases usplit _ _ _ _ (num_no_underscore hna) (num_no_underscore hnb)
        (ucancel hideq) with ⟨hd, _⟩
      exact hne hd
    · intro x hxA hxC
      rcases List.mem_map.mp hxA with ⟨a, hma, hia⟩
      rcases List.mem_map.mp hxC with ⟨c, hmc, hic⟩
      exact wf_atomic_comp_ne ai a c (hwf a hma) (hatomic a hma)
        (hCwf c hmc) (hCtypes c hmc) (hia.trans hic.symm)

/-- C1 (counterexample).  An act whose input repeats the section number १
(two lines `१. क` and `१. ख`) yields two chunks with the identical id
`<act>_१`, so chunk ids are NOT pairwise distinct for every input file. -/
theorem c1_counterexample :
    ¬ ((parse_act_chunks ("ऐन" : String).data ("a1b2c3d4" : String).data
        ("१. क\n१. ख" : String).data).map (fun c => c.chunk_id)).Nodup := by
  decide

/-- C1 (witness).  The amended theorem applied to a concrete act whose
marker keys are distinct. -/
theorem c1_chunk_ids_distinct_witness :
    ((parse_act_chunks ("ऐन" : String).data ("0a1b2c3d" : String).data
        ("२. ख\n(१) ग" : String).data).map (fun c => c.chunk_id)).Nodup :=
  c1_chunk_ids_distinct ("ऐन" : String).data ("0a1b2c3d" : String).data
    ("२. ख\n(१) ग" : String).data (by decide)

/-! ### Claim C3: cross-reference ordering -/

/-- C3.  The source's `extract_cross_references` ends with
`list(set(references))`: its order is Python hash-seed dependent, hence
not the deterministic sorted order the claim and spec require, and not
even stable across runs (string hashing is salted per process).  Modelling
the set's order as first-occurrence order (one admissible outcome), the
input `दफा २ दफा १` yields `["२", "१"]`, which differs from the sorted
output `["१", "२"]` demanded by the specification. -/
theorem c3_unsorted_cross_references :
    extract_cross_references ("दफा २ दफा १" : String).data =
      [("२" : String).data, ("१" : String).data] ∧
    ¬ sortRefs (extract_cross_references ("दफा २ दफा १" : String).data) =
      extract_cross_references ("दफा २ दफा १" : String).data := by
  decide

/-! ### Lemmas for the `clean_text` idempotence analysis (C6) -/

theorem punct_not_space {c : Char} (h : isPunct c = true) : pySpace c = false := by
  simp only [isPunct, decide_eq_true_eq] at h
  rcases h with rfl | rfl <;> decide

theorem okPrev_prevPunct {po : Option Char} (h : okPrev po = true) :
    prevPunct po = false := by
  cases po with
  | none => rfl
  | some p =>
    simp only [okPrev, Bool.not_eq_true'] at h
    exact h

theorem sOK_cons (prev : Option Char) (c : Char) (rest : List Char) :
    sOK prev (c :: rest) =
    (((!(pySpace c) || c = ' ') &&
    (if pySpace c then
       (match rest with
        | d :: _ => !(pySpace d) && (!(isPunct d) || prevPunct prev)
        | [] => true)
     else if isPunct c then
       (match rest with | d :: _ => d = ' ' | [] => true)
     else true)) &&
    sOK (some c) rest) := by
  simp only [sOK]

theorem sOK_prev_irrel {po1 po2 : Option Char} (l : List Char)
    (h1 : okPrev po1 = true) (h2 : okPrev po2 = true) :
    sOK po1 l = sOK po2 l := by
  cases l with
  | nil => rfl
  | cons c rest =>
    rw [sOK_cons, sOK_cons, okPrev_prevPunct h1, okPrev_prevPunct h2]

theorem sOK_nil (po : Option Char) : sOK po [] = true := by
  cases po <;> rfl

theorem sOK_tail {po : Option Char} {c : Char} {rest : List Char}
    (h : sOK po (c :: rest) = true) : sOK (some c) rest = true := by
  rw [sOK_cons] at h
  simp only [Bool.and_eq_true] at h
  exact h.2

theorem sOK_space_eq {po : Option Char} {c : Char} {rest : List Char}
    (h : sOK po (c :: rest) = true) (hws : pySpace c = true) : c = ' ' := by
  rw [sOK_cons] at h
  simp only [Bool.and_eq_true] at h
  have hc := h.1.1
  simp only [hws, Bool.not_true, Bool.false_or, decide_eq_true_eq] at hc
  exact hc

theorem sOK_space_next {po : Option Char} {c d : Char} {rest : List Char}
    (h : sOK po (c :: d :: rest) = true) (hws : pySpace c = true) :
    pySpace d = false := by
  rw [sOK_cons] at h
  simp only [Bool.and_eq_true] at h
  have hm := h.1.2
  rw [if_pos hws] at hm
  simp only [Bool.and_eq_true, Bool.not_eq_true'] at hm
  exact hm.1

theorem wsSp_tail {c : Char} {l : List Char} (h : wsSp (c :: l) = true) :
    wsSp l = true := by
  simp only [wsSp, List.all_cons, Bool.and_eq_true] at h
  exact h.2

theorem wsSp_head {c : Char} {l : List Char} (h : wsSp (c :: l) = true)
    (hws : pySpace c = true) : c = ' ' := by
  simp only [wsSp, List.all_cons, Bool.and_eq_true] at h
  have := h.1
  simp only [hws, Bool.not_true, Bool.false_or, decide_eq_true_eq] at this
  exact this

theorem noDbl_tail {c : Char} {l : List Char} (h : noDbl (c :: l) = true) :
    noDbl l = true := by
  cases l with
  | nil => rfl
  | cons d r =>
    simp only [noDbl, Bool.and_eq_true] at h
    exact h.2

theorem noDbl_head {c d : Char} {l : List Char} (h : noDbl (c :: d :: l) = true)
    (hws : pySpace c = true) : pySpace d = false := by
  simp only [noDbl, Bool.and_eq_true] at h
  have h1 := h.1
  rw [hws] at h1
  simpa using h1

theorem noDbl_cons1 {c : Char} {l : List Char}
    (h : pySpace c = false ∨ headNW l = true) (hl : noDbl l = true) :
    noDbl (c :: l) = true := by
  cases l with
  | nil => rfl
  | cons d r =>
    simp only [noDbl, Bool.and_eq_true]
    refine ⟨?_, hl⟩
    rcases h with h | h
    · simp [h]
    · simp only [headNW, Bool.not_eq_true'] at h
      simp [h]

theorem cw_true_headNW (l : List Char) : headNW (collapseWs true l) = true := by
  induction l with
  | nil => rfl
  | cons c rest ih =>
    by_cases h : pySpace c = true
    · simpa [collapseWs, h] using ih
    · simp [collapseWs, h, headNW]

theorem wsSp_cons {c : Char} {l : List Char}
    (h1 : (!(pySpace c) || c = ' ') = true) (h2 : wsSp l = true) :
    wsSp (c :: l) = true := by
  simp only [wsSp, List.all_cons, Bool.and_eq_true]
  exact ⟨h1, h2⟩

theorem cw_wsSp (b : Bool) (l : List Char) : wsSp (collapseWs b l) = true := by
  induction l generalizing b with
  | nil => rfl
  | cons c rest ih =>
    by_cases h : pySpace c = true
    · cases b with
      | true => simpa [collapseWs, h] using ih true
      | false =>
        simp only [collapseWs, if_pos h, if_neg (Bool.false_ne_true)]
        exact wsSp_cons (by decide) (ih true)
    · have h' : pySpace c = false := by simpa using h
      simp only [collapseWs, if_neg h]
      exact wsSp_cons (by simp [h']) (ih false)

theorem cw_noDbl (b : Bool) (l : List Char) : noDbl (collapseWs b l) = true := by
  induction l generalizing b with
  | nil => cases b <;> rfl
  | cons c rest ih =>
    by_cases h : pySpace c = true
    · cases b with
      | true => simpa [collapseWs, h] using ih true
      | false =>
        simp only [collapseWs, if_pos h, if_neg (Bool.false_ne_true)]
        exact noDbl_cons1 (Or.inr (cw_true_headNW rest)) (ih true)
    · have h' : pySpace c = false := by simpa using h
      simp only [collapseWs, if_neg h]
      exact noDbl_cons1 (Or.inl h') (ih false)

theorem cw_true_eq_false {l : List Char} (h : headNW l = true) :
    collapseWs true l = collapseWs false l := by
  cases l with
  | nil => rfl
  | cons c rest =>
    simp only [headNW, Bool.not_eq_true'] at h
    simp [collapseWs, h]

theorem sOK_collapse_fix : ∀ (po : Option Char) (l : List Char),
    sOK po l = true → collapseWs false l = l := by
  intro po l
  induction l generalizing po with
  | nil => intro _; rfl
  | cons c rest ih =>
    intro h
    by_cases hws : pySpace c = true
    · have hc : c = ' ' := sOK_space_eq h hws
      have hh : headNW rest = true := by
        cases rest with
        | nil => rfl
        | cons d r =>
          simp only [headNW, Bool.not_eq_true']
          exact sOK_space_next h hws
      simp only [collapseWs, if_pos hws, if_neg (Bool.false_ne_true)]
      rw [cw_true_eq_false hh, ih (some c) (sOK_tail h), hc]
    · simp only [collapseWs, if_neg hws]
      rw [ih (some c) (sOK_tail h)]

theorem dropWhile_headNW (l : List Char) : headNW (l.dropWhile pySpace) = true := by
  induction l with
  | nil => rfl
  | cons c rest ih =>
    by_cases h : pySpace c = true
    · simpa [List.dropWhile_cons, h] using ih
    · have h' : pySpace c = false := by simpa using h
      simp [List.dropWhile_cons, h', headNW]

theorem headNW_dropWhile_eq {l : List Char} (h : headNW l = true) :
    l.dropWhile pySpace = l := by
  cases l with
  | nil => rfl
  | cons c rest =>
    simp only [headNW, Bool.not_eq_true'] at h
    simp [List.dropWhile_cons, h]

theorem lastNW_dropT (l : List Char) : lastNW (dropT l) = true := by
  unfold lastNW dropT
  rw [List.reverse_reverse]
  exact dropWhile_headNW l.reverse

theorem strip_noop {l : List Char} (h1 : headNW l = true) (h2 : lastNW l = true) :
    pyStrip l = l := by
  unfold pyStrip
  rw [headNW_dropWhile_eq h1, headNW_dropWhile_eq h2, List.reverse_reverse]

theorem pyStrip_ws_cons {c : Char} {l : List Char} (hws : pySpace c = true) :
    pyStrip (c :: l) = pyStrip l := by
  unfold pyStrip
  simp [List.dropWhile_cons, hws]

theorem strip_append_space (l : List Char) : pyStrip (l ++ [' ']) = pyStrip l := by
  induction l with
  | nil => rfl
  | cons c rest ih =>
    by_cases h : pySpace c = true
    · rw [List.cons_append, pyStrip_ws_cons h, pyStrip_ws_cons h, ih]
    · have h' : pySpace c = false := by simpa using h
      unfold pyStrip
      rw [List.cons_append]
      simp only [List.dropWhile_cons, h', Bool.false_eq_true, if_false]
      rw [List.reverse_cons, List.reverse_cons, List.reverse_append]
      simp only [List.reverse_cons, List.reverse_nil, List.nil_append,
        List.singleton_append, List.dropWhile_cons]
      simp [show pySpace ' ' = true from by decide]

theorem headNW_append {l : List Char} (l2 : List Char) (h : l ≠ []) :
    headNW (l ++ l2) = headNW l := by
  cases l with
  | nil => exact absurd rfl h
  | cons c r => rfl

theorem lastNW_cons {c : Char} {l : List Char} (h : l ≠ []) :
    lastNW (c :: l) = lastNW l := by
  unfold lastNW
  rw [List.reverse_cons]
  exact headNW_append [c] (by simpa using h)

theorem dropT_decomp (l : List Char) :
    l = dropT l ++ (l.reverse.takeWhile pySpace).reverse := by
  unfold dropT
  rw [← List.reverse_append, List.takeWhile_append_dropWhile, List.reverse_reverse]

theorem all_takeWhile_self (p : Char → Bool) (l : List Char) :
    (l.takeWhile p).all p = true := by
  induction l with
  | nil => rfl
  | cons c rest ih =>
    by_cases h : p c = true
    · simp [List.takeWhile_cons, h, ih]
    · have h' : p c = false := by simpa using h
      simp [List.takeWhile_cons, h']

theorem sOK_append_ws : ∀ (m s : List Char) (po : Option Char),
    s.all pySpace = true → sOK po (m ++ s) = true → sOK po m = true := by
  intro m
  induction m with
  | nil => intro s po _ _; exact sOK_nil po
  | cons c m2 ih =>
    intro s po hs h
    rw [List.cons_append, sOK_cons] at h
    simp only [Bool.and_eq_true] at h
    obtain ⟨⟨hc, hm⟩, hr⟩ := h
    rw [sOK_cons]
    simp only [Bool.and_eq_true]
    refine ⟨⟨hc, ?_⟩, ih s (some c) hs hr⟩
    cases m2 with
    | nil =>
      by_cases h1 : pySpace c = true
      · rw [if_pos h1]
      · rw [if_neg h1]
        by_cases h2 : isPunct c = true
        · rw [if_pos h2]
        · rw [if_neg h2]
    | cons d m3 =>
      rw [List.cons_append] at hm
      exact hm

theorem sOK_dropT {po : Option Char} {l : List Char} (h : sOK po l = true) :
    sOK po (dropT l) = true := by
  refine sOK_append_ws (dropT l) ((l.reverse.takeWhile pySpace).reverse) po ?_ ?_
  · rw [List.all_reverse]
    exact all_takeWhile_self pySpace l.reverse
  · rw [← dropT_decomp l]
    exact h

theorem sOK_dropWhile {po : Option Char} {l : List Char} (hp : okPrev po = true)
    (h : sOK po l = true) : sOK po (l.dropWhile pySpace) = true := by
  induction l with
  | nil => exact h
  | cons c rest ih =>
    by_cases hws : pySpace c = true
    · rw [List.dropWhile_cons, if_pos hws]
      have hc : c = ' ' := sOK_space_eq h hws
      have htail : sOK (some c) rest = true := sOK_tail h
      have hop : okPrev (some c) = true := by rw [hc]; decide
      have htail2 : sOK po rest = true := by
        rw [sOK_prev_irrel rest hp hop]
        exact htail
      exact ih htail2
    · rw [List.dropWhile_cons, if_neg hws]
      exact h

theorem dropT_headNW {l : List Char} (h : headNW l = true) :
    headNW (dropT l) = true := by
  by_cases hn : dropT l = []
  · rw [hn]; rfl
  · rw [← headNW_append ((l.reverse.takeWhile pySpace).reverse) hn,
      ← dropT_decomp l]
    exact h

theorem pm_skip_headNW (l : List Char) : headNW (punctMach .skip [] l) = true := by
  induction l with
  | nil => rfl
  | cons c rest ih =>
    by_cases hp : isPunct c = true
    · simp [punctMach, hp, headNW, punct_not_space hp]
    · by_cases hws : pySpace c = true
      · simpa [punctMach, hp, hws] using ih
      · have h' : pySpace c = false := by simpa using hws
        simp [punctMach, hp, hws, headNW, h']

theorem okPrev_some {c : Char} (h : isPunct c = false) : okPrev (some c) = true := by
  simp [okPrev, h]

theorem sOK_single_space (po : Option Char) : sOK po [' '] = true := by
  rw [sOK_cons]
  simp only [Bool.and_eq_true]
  refine ⟨⟨by decide, ?_⟩, sOK_nil _⟩
  rw [if_pos (show pySpace ' ' = true from by decide)]

theorem pm_sOK : ∀ (n : Nat) (l : List Char), l.length ≤ n → wsSp l = true →
    noDbl l = true → ∀ po, okPrev po = true →
    sOK po (punctMach .norm [] l) = true ∧ sOK po (punctMach .skip [] l) = true := by
  intro n
  induction n with
  | zero =>
    intro l hl _ _ po _
    have hn : l = [] := List.length_eq_zero.mp (Nat.le_zero.mp hl)
    subst hn
    exact ⟨sOK_nil po, sOK_nil po⟩
  | succ n ih =>
    intro l hl hws hnd po hpo
    cases l with
    | nil => exact ⟨sOK_nil po, sOK_nil po⟩
    | cons c rest =>
      have hlen : rest.length ≤ n := by
        simp only [List.length_cons] at hl
        omega
      by_cases hp : isPunct c = true
      · have hnsp : pySpace c = false := punct_not_space hp
        have hcore : sOK po (c :: ' ' :: punctMach .skip [] rest) = true := by
          have hskip := (ih rest hlen (wsSp_tail hws) (noDbl_tail hnd) (some ' ')
            (by decide)).2
          rw [sOK_cons]
          simp only [Bool.and_eq_true]
          refine ⟨⟨by simp [hnsp], ?_⟩, ?_⟩
          · rw [if_neg (by simp [hnsp]), if_pos hp]
            rfl
          · rw [sOK_cons]
            simp only [Bool.and_eq_true]
            refine ⟨⟨by decide, ?_⟩, hskip⟩
            rw [if_pos (show pySpace ' ' = true from by decide)]
            cases hout : punctMach .skip [] rest with
            | nil => rfl
            | cons d r2 =>
              have hh := pm_skip_headNW rest
              rw [hout] at hh
              simp only [headNW, Bool.not_eq_true'] at hh
              simp [hh, prevPunct, hp]
        constructor
        · have he : punctMach .norm [] (c :: rest) = c :: ' ' :: punctMach .skip [] rest := by
            simp [punctMach, hp]
          rw [he]; exact hcore
        · have he : punctMach .skip [] (c :: rest) = c :: ' ' :: punctMach .skip [] rest := by
            simp [punctMach, hp]
          rw [he]; exact hcore
      · by_cases hsp : pySpace c = true
        · have hc : c = ' ' := wsSp_head hws hsp
          subst hc
          constructor
          · have h1 : punctMach .norm [] (' ' :: rest) = punctMach .norm [' '] rest := by
              simp [punctMach, hp, hsp]
            rw [h1]
            cases rest with
            | nil => exact sOK_single_space po
            | cons d r2 =>
              have hd : pySpace d = false := noDbl_head hnd (by decide)
              have hlen2 : r2.length ≤ n := by
                simp only [List.length_cons] at hl
                omega
              have hws2 : wsSp r2 = true := wsSp_tail (wsSp_tail hws)
              have hnd2 : noDbl r2 = true := noDbl_tail (noDbl_tail hnd)
              by_cases hdp : isPunct d = true
              · have h2 : punctMach .norm [' '] (d :: r2) =
                    d :: ' ' :: punctMach .skip [] r2 := by
                  simp [punctMach, hdp]
                rw [h2]
                have hskip := (ih r2 hlen2 hws2 hnd2 (some ' ') (by decide)).2
                rw [sOK_cons]
                simp only [Bool.and_eq_true]
                refine ⟨⟨by simp [punct_not_space hdp], ?_⟩, ?_⟩
                · rw [if_neg (by simp [punct_not_space hdp]), if_pos hdp]
                  rfl
                · rw [sOK_cons]
                  simp only [Bool.and_eq_true]
                  refine ⟨⟨by decide, ?_⟩, hskip⟩
                  rw [if_pos (show pySpace ' ' = true from by decide)]
                  cases hout : punctMach .skip [] r2 with
                  | nil => rfl
                  | cons e r3 =>
                    have hh := pm_skip_headNW r2
                    rw [hout] at hh
                    simp only [headNW, Bool.not_eq_true'] at hh
                    simp [hh, prevPunct, hdp]
              · have hdp' : isPunct d = false := by simpa using hdp
                have h2 : punctMach .norm [' '] (d :: r2) =
                    ' ' :: d :: punctMach .norm [] r2 := by
                  simp [punctMach, hdp', hd]
                rw [h2]
                rw [sOK_cons]
                simp only [Bool.and_eq_true]
                refine ⟨⟨by decide, ?_⟩, ?_⟩
                · rw [if_pos (show pySpace ' ' = true from by decide)]
                  simp [hd, hdp']
                · rw [sOK_cons]
                  simp only [Bool.and_eq_true]
                  refine ⟨⟨by simp [hd], ?_⟩, ?_⟩
                  · rw [if_neg (by simp [hd]), if_neg (by simp [hdp'])]
                  · exact (ih r2 hlen2 hws2 hnd2 (some d) (okPrev_some hdp')).1
          · have h1 : punctMach .skip [] (' ' :: rest) = punctMach .skip [] rest := by
              simp [punctMach, hp, hsp]
            rw [h1]
            exact (ih rest hlen (wsSp_tail hws) (noDbl_tail hnd) po hpo).2
        · have hsp' : pySpace c = false := by simpa using hsp
          have hp' : isPunct c = false := by simpa using hp
          have hcore : sOK po (c :: punctMach .norm [] rest) = true := by
            rw [sOK_cons]
            simp only [Bool.and_eq_true]
            refine ⟨⟨by simp [hsp'], ?_⟩, ?_⟩
            · rw [if_neg (by simp [hsp']), if_neg (by simp [hp'])]
            · exact (ih rest hlen (wsSp_tail hws) (noDbl_tail hnd) (some c)
                (okPrev_some hp')).1
          constructor
          · have he : punctMach .norm [] (c :: rest) = c :: punctMach .norm [] rest := by
              simp [punctMach, hp', hsp']
            rw [he]; exact hcore
          · have he : punctMach .skip [] (c :: rest) = c :: punctMach .norm [] rest := by
              simp [punctMach, hp', hsp']
            rw [he]; exact hcore

theorem skip_eq_norm {l : List Char} (h : headNW l = true) :
    punctMach .skip [] l = punctMach .norm [] l := by
  cases l with
  | nil => rfl
  | cons c rest =>
    simp only [headNW, Bool.not_eq_true'] at h
    by_cases hp : isPunct c = true
    · simp [punctMach, hp]
    · have hp' : isPunct c = false := by simpa using hp
      simp [punctMach, hp', h]

theorem lastNW_tail {c : Char} {l : List Char} (h : lastNW (c :: l) = true) :
    lastNW l = true := by
  cases l with
  | nil => rfl
  | cons d r =>
    rw [lastNW_cons (List.cons_ne_nil d r)] at h
    exact h

theorem punct_fix : ∀ (n : Nat) (po : Option Char) (l : List Char), l.length ≤ n →
    okPrev po = true → sOK po l = true → lastNW l = true →
    punctMach .norm [] l = l ∨ punctMach .norm [] l = l ++ [' '] := by
  intro n
  induction n with
  | zero =>
    intro po l hl _ _ _
    have hn : l = [] := List.length_eq_zero.mp (Nat.le_zero.mp hl)
    subst hn
    left; rfl
  | succ n ih =>
    intro po l hl hpo hs hlast
    cases l with
    | nil => left; rfl
    | cons c rest =>
      by_cases hp : isPunct c = true
      · have hnsp := punct_not_space hp
        have he : punctMach .norm [] (c :: rest) = c :: ' ' :: punctMach .skip [] rest := by
          simp [punctMach, hp]
        cases rest with
        | nil =>
          right
          rw [he]
          rfl
        | cons d r2 =>
          have hd : d = ' ' := by
            rw [sOK_cons] at hs
            simp only [Bool.and_eq_true] at hs
            have hm := hs.1.2
            rw [if_neg (by simp [hnsp]), if_pos hp] at hm
            simpa using hm
          subst hd
          cases r2 with
          | nil =>
            have hcon : lastNW [c, ' '] = false := by
              simp [lastNW, headNW, List.reverse_cons,
                show pySpace ' ' = true from by decide]
            rw [hcon] at hlast
            exact absurd hlast (by decide)
          | cons e r3 =>
            have htl : sOK (some c) (' ' :: e :: r3) = true := sOK_tail hs
            have hnr2 : headNW (e :: r3) = true := by
              have := sOK_space_next htl (by decide)
              simp [headNW, this]
            have hskipnorm : punctMach .skip [] (' ' :: e :: r3) =
                punctMach .norm [] (e :: r3) := by
              have hstep : punctMach .skip [] (' ' :: e :: r3) =
                  punctMach .skip [] (e :: r3) := by
                simp [punctMach, show isPunct ' ' = false from by decide,
                  show pySpace ' ' = true from by decide]
              rw [hstep, skip_eq_norm hnr2]
            have hse : sOK (some ' ') (e :: r3) = true := sOK_tail htl
            have hlast2 : lastNW (e :: r3) = true := lastNW_tail (lastNW_tail hlast)
            have hlen : (e :: r3).length ≤ n := by
              simp only [List.length_cons] at hl ⊢
              omega
            rcases ih (some ' ') (e :: r3) hlen (by decide) hse hlast2 with h1 | h1
            · left
              rw [he, hskipnorm, h1]
            · right
              rw [he, hskipnorm, h1]
              rfl
      · by_cases hsp : pySpace c = true
        · have hc : c = ' ' := sOK_space_eq hs hsp
          subst hc
          cases rest with
          | nil => exact absurd hlast (by decide)
          | cons d r2 =>
            have hdnw : pySpace d = false := sOK_space_next hs hsp
            have hdnp : isPunct d = false := by
              rw [sOK_cons] at hs
              simp only [Bool.and_eq_true] at hs
              have hm := hs.1.2
              rw [if_pos hsp, okPrev_prevPunct hpo] at hm
              simp only [Bool.and_eq_true, Bool.or_false, Bool.not_eq_true'] at hm
              exact hm.2
            have he : punctMach .norm [] (' ' :: d :: r2) =
                ' ' :: d :: punctMach .norm [] r2 := by
              simp [punctMach, show isPunct ' ' = false from by decide, hsp, hdnp, hdnw]
            have hs2 : sOK (some d) r2 = true := sOK_tail (sOK_tail hs)
            have hlast2 : lastNW r2 = true := lastNW_tail (lastNW_tail hlast)
            have hlen : r2.length ≤ n := by
              simp only [List.length_cons] at hl
              omega
            rcases ih (some d) r2 hlen (okPrev_some hdnp) hs2 hlast2 with h1 | h1
            · left
              rw [he, h1]
            · right
              rw [he, h1]
              rfl
        · have hsp' : pySpace c = false := by simpa using hsp
          have hp' : isPunct c = false := by simpa using hp
          have he : punctMach .norm [] (c :: rest) = c :: punctMach .norm [] rest := by
            simp [punctMach, hp', hsp']
          have hs2 : sOK (some c) rest = true := sOK_tail hs
          have hlast2 : lastNW rest = true := lastNW_tail hlast
          have hlen : rest.length ≤ n := by
            simp only [List.length_cons] at hl
            omega
          rcases ih (some c) rest hlen (okPrev_some hp') hs2 hlast2 with h1 | h1
          · left
            rw [he, h1]
          · right
            rw [he, h1]
            rfl

theorem cleanCore_idem (z : List Char) :
    pyStrip (punctSpace (collapseWs false
      (pyStrip (punctSpace (collapseWs false z))))) =
    pyStrip (punctSpace (collapseWs false z)) := by
  have hws : wsSp (collapseWs false z) = true := cw_wsSp false z
  have hnd : noDbl (collapseWs false z) = true := cw_noDbl false z
  have hsOK : sOK none (punctSpace (collapseWs false z)) = true :=
    (pm_sOK (collapseWs false z).length (collapseWs false z) le_rfl hws hnd none rfl).1
  have hdT : pyStrip (punctSpace (collapseWs false z)) =
      dropT ((punctSpace (collapseWs false z)).dropWhile pySpace) := rfl
  have hsy : sOK none (pyStrip (punctSpace (collapseWs false z))) = true := by
    rw [hdT]
    exact sOK_dropT (sOK_dropWhile rfl hsOK)
  have hhead : headNW (pyStrip (punctSpace (collapseWs false z))) = true := by
    rw [hdT]
    exact dropT_headNW (dropWhile_headNW _)
  have hlastF : lastNW (pyStrip (punctSpace (collapseWs false z))) = true := by
    rw [hdT]
    exact lastNW_dropT _
  rw [sOK_collapse_fix none _ hsy]
  rcases punct_fix (pyStrip (punctSpace (collapseWs false z))).length none
      (pyStrip (punctSpace (collapseWs false z))) le_rfl rfl hsy hlastF with h1 | h1
  · rw [show punctSpace (pyStrip (punctSpace (collapseWs false z))) =
        punctMach .norm [] (pyStrip (punctSpace (collapseWs false z))) from rfl, h1]
    exact strip_noop hhead hlastF
  · rw [show punctSpace (pyStrip (punctSpace (collapseWs false z))) =
        punctMach .norm [] (pyStrip (punctSpace (collapseWs false z))) from rfl, h1,
      strip_append_space]
    exact strip_noop hhead hlastF

theorem mem_dropWhile_subset (p : Char → Bool) (l : List Char) :
    ∀ c ∈ l.dropWhile p, c ∈ l := by
  intro c h
  rw [← List.takeWhile_append_dropWhile p l]
  exact List.mem_append_right _ h

theorem mem_takeWhile_subset (p : Char → Bool) (l : List Char) :
    ∀ c ∈ l.takeWhile p, c ∈ l := by
  intro c h
  rw [← List.takeWhile_append_dropWhile p l]
  exact List.mem_append_left _ h

theorem mem_removeLitGo (pat : List Char) : ∀ (fuel : Nat) (l : List Char) (c : Char),
    c ∈ removeLitGo pat fuel l → c ∈ l := by
  intro fuel
  induction fuel with
  | zero => intro l c h; exact h
  | succ fuel ih =>
    intro l c h
    cases l with
    | nil => exact h
    | cons a rest =>
      by_cases hls : lowStarts pat (a :: rest) = true
      · rw [removeLitGo, if_pos hls] at h
        exact List.mem_of_mem_drop (ih _ c h)
      · rw [removeLitGo, if_neg hls] at h
        rcases List.mem_cons.mp h with rfl | h2
        · exact List.mem_cons_self _ _
        · exact List.mem_cons_of_mem _ (ih rest c h2)

theorem splitLastNl_eq : ∀ (l a b : List Char), splitLastNl l = some (a, b) →
    l = a ++ b := by
  intro l
  induction l with
  | nil => intro a b h; exact Option.noConfusion h
  | cons c rest ih =>
    intro a b h
    rw [splitLastNl] at h
    cases hs : splitLastNl rest with
    | some p =>
      obtain ⟨p1, p2⟩ := p
      rw [hs] at h
      obtain ⟨rfl, rfl⟩ := Prod.mk.injEq .. ▸ Option.some.inj h
      rw [List.cons_append, ← ih p1 p2 hs]
    | none =>
      rw [hs] at h
      by_cases hc : c = '\n'
      · rw [if_pos hc] at h
        obtain ⟨rfl, rfl⟩ := Prod.mk.injEq .. ▸ Option.some.inj h
        rfl
      · rw [if_neg hc] at h
        exact Option.noConfusion h

theorem mem_tryBareNum {l rem : List Char} {b : Bool}
    (h : tryBareNum l = some (b, rem)) : ∀ c ∈ rem, c ∈ l := by
  intro c hc
  unfold tryBareNum at h
  by_cases h1 : ((l.dropWhile pySpace).takeWhile numCh).isEmpty = true
  · rw [if_pos h1] at h
    exact Option.noConfusion h
  · rw [if_neg h1] at h
    by_cases h2 : (((l.dropWhile pySpace).dropWhile numCh).dropWhile pySpace).isEmpty = true
    · rw [if_pos h2] at h
      obtain ⟨-, rfl⟩ := Prod.mk.injEq .. ▸ Option.some.inj h
      exact absurd hc (List.not_mem_nil c)
    · rw [if_neg h2] at h
      cases hs : splitLastNl (((l.dropWhile pySpace).dropWhile numCh).takeWhile pySpace) with
      | none => rw [hs] at h; exact Option.noConfusion h
      | some p =>
        obtain ⟨w1, rest2⟩ := p
        rw [hs] at h
        obtain ⟨-, rfl⟩ := Prod.mk.injEq .. ▸ Option.some.inj h
        have hr1 : ∀ d ∈ (l.dropWhile pySpace).dropWhile numCh, d ∈ l := by
          intro d hd
          exact mem_dropWhile_subset pySpace l d (mem_dropWhile_subset numCh _ d hd)
        rcases List.mem_append.mp hc with hc2 | hc2
        · have hw : c ∈ ((l.dropWhile pySpace).dropWhile numCh).takeWhile pySpace := by
            rw [splitLastNl_eq _ _ _ hs]
            exact List.mem_append_right w1 hc2
          exact hr1 c (mem_takeWhile_subset pySpace _ c hw)
        · exact hr1 c (mem_dropWhile_subset pySpace _ c hc2)

theorem mem_bareNumGo : ∀ (fuel : Nat) (b : Bool) (l : List Char) (c : Char),
    c ∈ bareNumGo fuel b l → c ∈ l := by
  intro fuel
  induction fuel with
  | zero => intro b l c h; exact h
  | succ fuel ih =>
    intro b l c h
    cases l with
    | nil => exact h
    | cons a rest =>
      cases b with
      | false =>
        rw [bareNumGo, if_neg (Bool.false_ne_true)] at h
        rcases List.mem_cons.mp h with rfl | h2
        · exact List.mem_cons_self _ _
        · exact List.mem_cons_of_mem _ (ih _ rest c h2)
      | true =>
        rw [bareNumGo, if_pos rfl] at h
        cases ht : tryBareNum (a :: rest) with
        | some pr =>
          obtain ⟨eb, rem⟩ := pr
          rw [ht] at h
          exact mem_tryBareNum ht c (ih eb rem c h)
        | none =>
          rw [ht] at h
          rcases List.mem_cons.mp h with rfl | h2
          · exact List.mem_cons_self _ _
          · exact List.mem_cons_of_mem _ (ih _ rest c h2)

theorem mem_findBhag : ∀ (l rem : List Char), findBhag l = some rem →
    ∀ c ∈ rem, c ∈ l := by
  intro l
  induction l with
  | nil => intro rem h; exact Option.noConfusion h
  | cons a rest ih =>
    intro rem h c hc
    rw [findBhag] at h
    by_cases hs : startsWithL bhagLit (a :: rest) = true
    · rw [if_pos hs] at h
      rw [← Option.some.inj h] at hc
      exact List.mem_of_mem_drop hc
    · rw [if_neg hs] at h
      by_cases ha : a = '\n'
      · rw [if_pos ha] at h
        exact Option.noConfusion h
      · rw [if_neg ha] at h
        exact List.mem_cons_of_mem _ (ih rem h c hc)

theorem mem_gazetteGo : ∀ (fuel : Nat) (l : List Char) (c : Char),
    c ∈ gazetteGo fuel l → c ∈ l := by
  intro fuel
  induction fuel with
  | zero => intro l c h; exact h
  | succ fuel ih =>
    intro l c h
    cases l with
    | nil => exact h
    | cons a rest =>
      by_cases hs : startsWithL gzLit (a :: rest) = true
      · rw [gazetteGo, if_pos hs] at h
        cases hb : findBhag (List.drop gzLit.length (a :: rest)) with
        | some rem =>
          rw [hb] at h
          exact List.mem_of_mem_drop (mem_findBhag _ rem hb c (ih rem c h))
        | none =>
          rw [hb] at h
          rcases List.mem_cons.mp h with rfl | h2
          · exact List.mem_cons_self _ _
          · exact List.mem_cons_of_mem _ (ih rest c h2)
      · rw [gazetteGo, if_neg hs] at h
        rcases List.mem_cons.mp h with rfl | h2
        · exact List.mem_cons_self _ _
        · exact List.mem_cons_of_mem _ (ih rest c h2)

theorem mem_collapseWs : ∀ (b : Bool) (l : List Char) (c : Char),
    c ∈ collapseWs b l → c ∈ l ∨ c = ' ' := by
  intro b l
  induction l generalizing b with
  | nil => intro c h; exact absurd h (List.not_mem_nil c)
  | cons a rest ih =>
    intro c h
    by_cases hws : pySpace a = true
    · cases b with
      | true =>
        rw [collapseWs, if_pos hws, if_pos rfl] at h
        rcases ih true c h with h2 | h2
        · exact Or.inl (List.mem_cons_of_mem _ h2)
        · exact Or.inr h2
      | false =>
        rw [collapseWs, if_pos hws, if_neg (Bool.false_ne_true)] at h
        rcases List.mem_cons.mp h with rfl | h2
        · exact Or.inr rfl
        · rcases ih true c h2 with h3 | h3
          · exact Or.inl (List.mem_cons_of_mem _ h3)
          · exact Or.inr h3
    · rw [collapseWs, if_neg hws] at h
      rcases List.mem_cons.mp h with rfl | h2
      · exact Or.inl (List.mem_cons_self _ _)
      · rcases ih false c h2 with h3 | h3
        · exact Or.inl (List.mem_cons_of_mem _ h3)
        · exact Or.inr h3

theorem mem_punctMach : ∀ (l pend : List Char) (m : P6Mode) (c : Char),
    c ∈ punctMach m pend l → c ∈ pend ∨ c ∈ l ∨ c = ' ' := by
  intro l
  induction l with
  | nil =>
    intro pend m c h
    cases m with
    | norm =>
      exact Or.inl (List.mem_reverse.mp h)
    | skip => exact absurd h (List.not_mem_nil c)
  | cons a rest ih =>
    intro pend m c h
    have hskipcase : c ∈ a :: ' ' :: punctMach .skip [] rest →
        c ∈ pend ∨ c ∈ a :: rest ∨ c = ' ' := by
      intro h2
      rcases List.mem_cons.mp h2 with rfl | h3
      · exact Or.inr (Or.inl (List.mem_cons_self _ _))
      rcases List.mem_cons.mp h3 with rfl | h4
      · exact Or.inr (Or.inr rfl)
      rcases ih [] .skip c h4 with h5 | h5 | h5
      · exact absurd h5 (List.not_mem_nil c)
      · exact Or.inr (Or.inl (List.mem_cons_of_mem _ h5))
      · exact Or.inr (Or.inr h5)
    cases m with
    | norm =>
      by_cases hp : isPunct a = true
      · rw [punctMach, if_pos hp] at h
        exact hskipcase h
      · by_cases hws : pySpace a = true
        · rw [punctMach, if_neg hp, if_pos hws] at h
          rcases ih (a :: pend) .norm c h with h2 | h2 | h2
          · rcases List.mem_cons.mp h2 with rfl | h3
            · exact Or.inr (Or.inl (List.mem_cons_self _ _))
            · exact Or.inl h3
          · exact Or.inr (Or.inl (List.mem_cons_of_mem _ h2))
          · exact Or.inr (Or.inr h2)
        · rw [punctMach, if_neg hp, if_neg hws] at h
          rcases List.mem_append.mp h with h2 | h2
          · exact Or.inl (List.mem_reverse.mp h2)
          rcases List.mem_cons.mp h2 with rfl | h3
          · exact Or.inr (Or.inl (List.mem_cons_self _ _))
          rcases ih [] .norm c h3 with h4 | h4 | h4
          · exact absurd h4 (List.not_mem_nil c)
          · exact Or.inr (Or.inl (List.mem_cons_of_mem _ h4))
          · exact Or.inr (Or.inr h4)
    | skip =>
      by_cases hp : isPunct a = true
      · rw [punctMach, if_pos hp] at h
        exact hskipcase h
      · by_cases hws : pySpace a = true
        · rw [punctMach, if_neg hp, if_pos hws] at h
          rcases ih [] .skip c h with h2 | h2 | h2
          · exact absurd h2 (List.not_mem_nil c)
          · exact Or.inr (Or.inl (List.mem_cons_of_mem _ h2))
          · exact Or.inr (Or.inr h2)
        · rw [punctMach, if_neg hp, if_neg hws] at h
          rcases List.mem_cons.mp h with rfl | h3
          · exact Or.inr (Or.inl (List.mem_cons_self _ _))
          rcases ih [] .norm c h3 with h4 | h4 | h4
          · exact absurd h4 (List.not_mem_nil c)
          · exact Or.inr (Or.inl (List.mem_cons_of_mem _ h4))
          · exact Or.inr (Or.inr h4)

theorem mem_pyStrip (l : List Char) (c : Char) : c ∈ pyStrip l → c ∈ l := by
  intro h
  unfold pyStrip at h
  have h1 := List.mem_reverse.mp h
  have h2 := mem_dropWhile_subset pySpace _ c h1
  have h3 := List.mem_reverse.mp h2
  exact mem_dropWhile_subset pySpace l c h3

theorem clean_text_noBullet (x : List Char) :
    ∀ c ∈ clean_text x, isBullet c = false := by
  intro c hc
  have h1 := mem_pyStrip _ c hc
  rcases mem_punctMach _ [] .norm c h1 with h | h | h
  · exact absurd h (List.not_mem_nil c)
  · rcases mem_collapseWs false _ c h with h | h
    · have h2 := mem_gazetteGo _ _ c h
      have h3 := mem_bareNumGo _ _ _ c h2
      have h4 := mem_removeLitGo wmLit _ _ c h3
      have h5 := List.mem_filter.mp h4
      simpa using h5.2
    · rw [h]; decide
  · rw [h]; decide

theorem dropBullets_fix {l : List Char} (h : ∀ c ∈ l, isBullet c = false) :
    dropBullets l = l := by
  unfold dropBullets
  rw [List.filter_eq_self]
  intro a ha
  simpa using h a ha

/-- C6.  The claim "clean_text is idempotent for every input string" is
false: removing one watermark occurrence can splice the surrounding text
into a fresh watermark occurrence, which a second `clean_text` then also
removes.  On `"www.lawcommission.govwww.lawcommission.gov.np.np"` the
first pass yields `"www.lawcommission.gov.np"` and the second pass yields
the empty string. -/
theorem c6_counterexample :
    ¬ (clean_text (clean_text
        ("www.lawcommission.govwww.lawcommission.gov.np.np" : String).data) =
       clean_text
        ("www.lawcommission.govwww.lawcommission.gov.np.np" : String).data) := by
  decide

/-- C6 (amended).  `clean_text` is idempotent at every input whose cleaned
form is a fixed point of the three line/pattern deletion passes (watermark
removal, bare-number-line removal, gazette-header removal): the bullet
pass never reintroduces work, and the whitespace-collapsing, punctuation-
spacing and strip passes are jointly idempotent unconditionally.  The
counterexample shows the watermark hypothesis cannot be dropped. -/
theorem c6_clean_text_idempotent (x : List Char)
    (h2 : dropWatermark (clean_text x) = clean_text x)
    (h3 : dropBareNumLines (clean_text x) = clean_text x)
    (h4 : dropGazette (clean_text x) = clean_text x) :
    clean_text (clean_text x) = clean_text x := by
  have hb : dropBullets (clean_text x) = clean_text x :=
    dropBullets_fix (clean_text_noBullet x)
  have hstep : clean_text (clean_text x) =
      pyStrip (punctSpace (collapseWs false (clean_text x))) := by
    show pyStrip (punctSpace (collapseWs false (dropGazette (dropBareNumLines
      (dropWatermark (dropBullets (clean_text x))))))) = _
    rw [hb, h2, h3, h4]
  rw [hstep]
  exact cleanCore_idem (dropGazette (dropBareNumLines (dropWatermark
    (dropBullets x))))

theorem c6_clean_text_idempotent_witness :
    (dropWatermark (clean_text ("क  ख" : String).data) =
        clean_text ("क  ख" : String).data ∧
     dropBareNumLines (clean_text ("क  ख" : String).data) =
        clean_text ("क  ख" : String).data ∧
     dropGazette (clean_text ("क  ख" : String).data) =
        clean_text ("क  ख" : String).data) ∧
    clean_text (clean_text ("क  ख" : String).data) =
        clean_text ("क  ख" : String).data :=
  ⟨⟨by decide, by decide, by decide⟩,
   c6_clean_text_idempotent ("क  ख" : String).data
     (by decide) (by decide) (by decide)⟩
